import Mathlib

/-!
# Verification of the askalono matching engine against its specification

This file gives a shallow embedding, in Lean 4, of the core of the
`askalono` license-identification engine (`src/preproc.rs`, `src/ngram.rs`,
`src/license.rs`, `src/store/base.rs`, `src/store/analyze.rs`,
`src/store/cache.rs`, `src/strategy.rs`) and proves or refutes the
specification's claims about it.

Modelling conventions, used throughout:

* Rust strings are modeled as `Str := List Char` (for the byte-level
  UTF-8 claims, as `List Nat` of bytes).  Character classes of the
  regexes (`\w`, `\s`, Unicode punctuation) are modeled at their ASCII
  meaning; every concrete input appearing in a theorem below is plain
  ASCII, where the model and the regex crate agree, and Unicode NFC
  normalization is the identity.
* `f32` scores are modeled as `Option Frac`, where `Frac` is an
  unreduced fraction `num / den` over ℕ: `none` models the IEEE NaN
  produced by `0.0 / 0.0`, `some f` models the ordinary value
  `f.num / f.den`.  Comparisons of fractions are by cross-multiplication
  (`fLe`, `fLt`, `fEq`), i.e. exact comparison of the rational values;
  every score the engine produces has a positive denominator.  All IEEE
  comparisons used by the source (`>`, `>=`, `<`, `partial_cmp`) return
  `false`/`None` when an operand is NaN, which the helpers `sGt`, `sGe`,
  `sLt` reproduce.  Real division is exact here while `f32` rounds; every
  concrete comparison appearing in a proof below is between well-separated
  rationals, where rounding cannot change the outcome.
* A Rust panic (out-of-bounds slice, `Option::unwrap` on `None`,
  `step_by(0)`) is modeled by returning `none` from the embedded
  function: the function produces no result.
* `HashMap` iteration order is unspecified in Rust; a `Store` is modeled
  as an association list whose order stands for the iteration order of
  one particular run.  `sort_unstable_by` gives no guarantee about the
  relative order of equal keys, so the analyzers are parameterized by the
  sorting function, constrained only by what `sort_unstable_by`
  guarantees (`SortSpec`: the output is a permutation of the input,
  descending by score).
-/

set_option maxRecDepth 10000

namespace Askalono

/-- Rust `&str`/`String`, modeled as a list of characters. -/
abbrev Str := List Char

/-- Shorthand turning a Lean string literal into the model's string type. -/
def str (s : String) : Str := s.data

/-- Split a list on every occurrence of the separator `c`.  Models Rust
`str::split(c)`: the empty string yields one (empty) field, and `n`
separators yield `n + 1` fields. -/
def splitOnCharL (c : Char) (l : Str) : List Str :=
  l.foldr (fun ch acc =>
    if ch = c then [] :: acc
    else (ch :: acc.headD []) :: acc.tail) [[]]

/-- Join a list of strings with the separator character `c`.  Models
`[&str]::join(sep)` for a one-character separator. -/
def joinSep (c : Char) : List Str → Str
  | [] => []
  | [l] => l
  | l :: ls => l ++ c :: joinSep c ls

/-- Join with newlines, as `lines.join("\n")` in the source. -/
def joinNL (ls : List Str) : Str := joinSep '\n' ls

/-- The `\s` character class of the `regex` crate (and `char::is_whitespace`),
at its ASCII meaning: space, tab, newline, carriage return, vertical tab,
form feed. -/
def isSpaceChar (c : Char) : Bool :=
  c = ' ' || c = '\t' || c = '\n' || c = '\r' || c = '\x0b' || c = '\x0c'

/-- The `\w` character class at its ASCII meaning: alphanumeric or `_`. -/
def isWordChar (c : Char) : Bool := c.isAlphanum || c = '_'

/-- Rust `str::trim`: drop leading and trailing whitespace. -/
def trimStr (l : Str) : Str :=
  ((l.dropWhile (fun c => isSpaceChar c)).reverse.dropWhile
    (fun c => isSpaceChar c)).reverse

/-- Does `pat` occur at position `i` of `l`? -/
def matchAt (l : Str) (i : Nat) (pat : Str) : Bool :=
  decide ((l.drop i).take pat.length = pat)

/-- Does `pat` occur anywhere in `l` (contiguously)? -/
def hasSub (l : Str) (pat : Str) : Bool :=
  (List.range (l.length + 1)).any (fun i => matchAt l i pat)

/-- UTF-8 byte length of a string, as Rust's `str::len`. -/
def utf8Len (l : Str) : Nat := (l.map Char.utf8Size).sum

end Askalono

namespace Askalono

/-! ## Preprocessor (`src/preproc.rs`), aggressive pass

The aggressive pass `apply_aggressive` is the composition of the eight
preprocessors of `PREPROC_AGGRESSIVE`, in order.  Each is embedded below
from its source.  The regex-based ones are implemented at the ASCII
meaning of their character classes. -/

/-- The longest common character prefix of two strings.

Models `lcs_substr` (`src/preproc.rs:159`) without the final `trim`:
the source computes the longest common *byte* prefix and then backs the
cut off to a UTF-8 character boundary of `f_line` with
`trim_byte_adjusted`; for valid UTF-8 this equals the longest common
character prefix (a partial trailing code point cannot be common to both
without its completing bytes differing).  `trim_byte_adjusted` itself is
verified separately, at the byte level, further below. -/
def commonPre : Str → Str → Str
  | a :: as, b :: bs => if a = b then a :: commonPre as bs else []
  | _, _ => []

/-- `lcs_substr`: common prefix of two lines, trimmed. -/
def lcs_substr (a b : Str) : Str := trimStr (commonPre a b)

/-- Insert-or-bump of `remove_common_tokens`'s
`*prefix_counts.entry(common).or_insert(1) += 1`: a fresh key starts at
`1` and is immediately incremented, so its first recorded count is `2`. -/
def bumpCount : List (Str × Nat) → Str → List (Str × Nat)
  | [], k => [(k, 2)]
  | (k', v) :: rest, k =>
    if k' = k then (k', v + 1) :: rest else (k', v) :: bumpCount rest k

/-- `Iterator::max_by_key` over the count map: among maximal values the
*last* one in iteration order wins.  `HashMap` iteration order is
unspecified; insertion order stands in for it (no theorem below depends
on a tie between distinct prefixes). -/
def maxByVal : List (Str × Nat) → Option (Str × Nat)
  | [] => none
  | (k, v) :: rest =>
    match maxByVal rest with
    | none => some (k, v)
    | some (k', v') => if v' ≥ v then some (k', v') else some (k, v)

/-- First aggressive preprocessor, `remove_common_tokens`
(`src/preproc.rs:171`): count common prefixes of consecutive line pairs,
and if the most common one covers at least 80 % of the lines, strip it
from every line that starts with it (trimming each line either way).
The `(0.8f32 * lines.len() as f32) as u32` threshold is modeled as
`4 * n / 5` (equal for every line count small enough for `f32` to be
exact). -/
def remove_common_tokens (input : Str) : Str :=
  let lines := splitOnCharL '\n' input
  let pairs := lines.zip lines.tail
  let commons := pairs.map (fun p => lcs_substr p.1 p.2)
  let counts := commons.foldl
    (fun m c => if utf8Len c > 3 then bumpCount m c else m) []
  match maxByVal counts with
  | none => input
  | some most =>
    let commonCount :=
      ((counts.filter (fun p => (most.1).isPrefixOf p.1)).map Prod.snd).sum
    if commonCount < 4 * lines.length / 5 then input
    else
      joinNL (lines.map (fun l =>
        if (most.1).isPrefixOf l then trimStr (l.drop most.1.length)
        else trimStr l))

/-- Emit a run of `run` newlines, capped at two: models the
`\n{3,}` → `"\n\n"` replacement of `normalize_vertical_whitespace`. -/
def emitNL (run : Nat) : Str := List.replicate (min run 2) '\n'

/-- Tail of `normalize_vertical_whitespace`: squeeze runs of three or
more newlines down to exactly two. -/
def squeezeNLAux : Str → Nat → Str
  | [], run => emitNL run
  | c :: rest, run =>
    if c = '\n' then squeezeNLAux rest (run + 1)
    else emitNL run ++ c :: squeezeNLAux rest 0

/-- Second aggressive preprocessor, `normalize_vertical_whitespace`
(`src/preproc.rs:230`): each of `\r`, `\v`, `\f`, `\n` becomes `\n`,
then runs of three or more newlines become exactly two. -/
def normalize_vertical_whitespace (input : Str) : Str :=
  squeezeNLAux
    (input.map (fun c =>
      if c = '\r' || c = '\x0b' || c = '\x0c' then '\n' else c)) 0

/-- Third aggressive preprocessor, `remove_punctuation`
(`src/preproc.rs:241`): delete every character that is neither `\w` nor
`\s`. -/
def remove_punctuation (input : Str) : Str :=
  input.filter (fun c => isWordChar c || isSpaceChar c)

/-- Fourth aggressive preprocessor, `lowercaseify`. -/
def lowercaseify (input : Str) : Str := input.map Char.toLower

/-- Tail check for the title-line regex after the literal `license`:
the remainder must be empty, or ` copyright` followed by anything. -/
def afterCopyrightOk (r : Str) : Bool :=
  decide (r = []) || (str " copyright").isPrefixOf r

/-- Tail check after ` version `: a nonempty run of non-whitespace
(`\S+`), then the optional ` copyright.*`.  Because ` copyright` starts
with a space, the greedy `\S+` split is the unique one. -/
def versionTailOk (r : Str) : Bool :=
  let w := r.takeWhile (fun c => !isSpaceChar c)
  decide (w ≠ []) && afterCopyrightOk (r.drop w.length)

/-- Does a line match `^.*license( version \S+)?( copyright.*)?$`
(the first-line part of the `remove_title_line` regex)?  `.` does not
match `\n`, so the whole pattern is confined to the first line; a match
exists iff some occurrence of `license` leaves an admissible tail. -/
def titleLineMatches (l : Str) : Bool :=
  (List.range (l.length + 1)).any (fun i =>
    matchAt l i (str "license") &&
      (afterCopyrightOk (l.drop (i + 7)) ||
        ((str " version ").isPrefixOf (l.drop (i + 7)) &&
          versionTailOk (l.drop (i + 16)))))

/-- Fifth aggressive preprocessor, `remove_title_line`
(`src/preproc.rs:252`): the regex `^.*license( version \S+)?( copyright.*)?\n\n`
is anchored to the start of the text (no multi-line flag), so it strips
the first line and the following blank line when the first line matches
and is followed by `\n\n` — i.e. when the split yields at least three
fields with the second one empty. -/
def remove_title_line (input : Str) : Str :=
  match splitOnCharL '\n' input with
  | l0 :: l1 :: r :: rest =>
    if titleLineMatches l0 && decide (l1 = []) then joinNL (r :: rest)
    else input
  | _ => input

/-- Does a line match `^\x20*copyright.*$`? -/
def copyrightLine (l : Str) : Bool :=
  (str "copyright").isPrefixOf (l.dropWhile (fun c => c = ' '))

/-- Repetition matcher for `(\s+(c|\d+))+ ` in the copyright-statement
line pattern: eat one or more groups of whitespace followed by `c` or a
digit run, until a trailing space is reached. -/
def eatCopyGroups : Nat → Str → Bool
  | _, [] => false
  | 0, _ => false
  | fuel + 1, r =>
    let sp := r.takeWhile (fun c => isSpaceChar c)
    let r' := r.drop sp.length
    let tok := r'.takeWhile (fun c => !isSpaceChar c)
    decide (sp ≠ []) &&
      (decide (tok = str "c") || (decide (tok ≠ []) && tok.all Char.isDigit)) &&
      (((str " ").isPrefixOf (r'.drop tok.length)) ||
        eatCopyGroups fuel (r'.drop tok.length))

/-- Does a line match `^copyright (\s+(c|\d+))+ .*?$`? -/
def copyrightStatementLine (l : Str) : Bool :=
  (str "copyright ").isPrefixOf l && eatCopyGroups l.length (l.drop 9)

/-- Sixth aggressive preprocessor, `remove_copyright_statements`
(`src/preproc.rs:260`).  The multi-line regex removes (replacing with a
paragraph break `\n\n`): paragraphs all of whose lines start with
`copyright`, the very first line if it contains `copyright`, and single
lines shaped like `^copyright (\s+(c|\d+))+ .*?$`.  The paragraph logic
is modeled line-wise; on text without the substring `copyright` the
regex cannot match and the function is the identity, which is the only
case exercised by the theorems below. -/
def remove_copyright_statements (input : Str) : Str :=
  if ¬ hasSub input (str "copyright") then input
  else
    let lines := splitOnCharL '\n' input
    let lines1 :=
      match lines with
      | l0 :: rest => if hasSub l0 (str "copyright") then [] :: [] :: rest else lines
      | [] => lines
    let dropRun : List Str → List Str := fun ls =>
      ls.filter (fun l => !(copyrightLine l && l ≠ []))
    let lines2 := dropRun lines1
    joinNL (lines2.map (fun l => if copyrightStatementLine l then [] else l))

/-- Helper for `collapse_whitespace`: the boolean records whether the
previous character was whitespace (already emitted as one space). -/
def collapseWSAux : Str → Bool → Str
  | [], _ => []
  | c :: rest, prevSpace =>
    if isSpaceChar c then
      if prevSpace then collapseWSAux rest true
      else ' ' :: collapseWSAux rest true
    else c :: collapseWSAux rest false

/-- Seventh aggressive preprocessor, `collapse_whitespace`
(`src/preproc.rs:289`): every run of whitespace becomes a single space. -/
def collapse_whitespace (input : Str) : Str := collapseWSAux input false

/-- `apply_aggressive` (`src/preproc.rs:65`): the eight preprocessors of
`PREPROC_AGGRESSIVE` applied in order, ending with a trim. -/
def apply_aggressive (s : Str) : Str :=
  trimStr (collapse_whitespace (remove_copyright_statements
    (remove_title_line (lowercaseify (remove_punctuation
      (normalize_vertical_whitespace (remove_common_tokens s)))))))

/-- `apply_normalizers` (`src/preproc.rs:52`): split the input on `\n`
and push one normalized line per input line.  The six per-line
normalizers of `PREPROC_NORMALIZE` are regex/Unicode-library
transformations of a single line; the list length — the subject of the
claim about this function — does not depend on them, so the pipeline is
taken as a parameter. -/
def apply_normalizers (passes : List (Str → Str)) (text : Str) : List Str :=
  (splitOnCharL '\n' text).map (fun line =>
    passes.foldl (fun s p => p s) line)

end Askalono

namespace Askalono


/-! ## Scores as exact fractions

A score is `Option Frac`: `none` is NaN, `some ⟨m, d⟩` is the value
`m / d`.  The source divides in `f32`; keeping the numerator and
denominator separate makes every value exact and every comparison a
comparison of natural-number products. -/

/-- An unreduced nonnegative fraction. -/
structure Frac where
  num : Nat
  den : Nat
deriving DecidableEq

/-- Value order on fractions (cross-multiplication). -/
def fLe (x y : Frac) : Prop := x.num * y.den ≤ y.num * x.den

/-- Strict value order on fractions. -/
def fLt (x y : Frac) : Prop := x.num * y.den < y.num * x.den

/-- Value equality on fractions. -/
def fEq (x y : Frac) : Prop := x.num * y.den = y.num * x.den

instance (x y : Frac) : Decidable (fLe x y) := by unfold fLe; infer_instance

instance (x y : Frac) : Decidable (fLt x y) := by unfold fLt; infer_instance

instance (x y : Frac) : Decidable (fEq x y) := by unfold fEq; infer_instance

/-- The `f32` value `0.0`. -/
def fZero : Frac := ⟨0, 1⟩

/-- Strict `>` on scores; false if either side is NaN. -/
def sGt : Option Frac → Option Frac → Bool
  | some a, some b => decide (fLt b a)
  | _, _ => false

/-- `>=` on scores; false if either side is NaN. -/
def sGe : Option Frac → Option Frac → Bool
  | some a, some b => decide (fLe b a)
  | _, _ => false

/-- `<` on scores; false if either side is NaN. -/
def sLt : Option Frac → Option Frac → Bool
  | some a, some b => decide (fLt a b)
  | _, _ => false

/-! ## NgramSet and Sørensen–Dice similarity (`src/ngram.rs`)

The source stores a `HashMap<String, u32>` of gram counts together with
the arity `n` and the total count `size`.  The multiset is modeled as
the list of grams in insertion order (counts implicit by repetition);
`size` is then the list length and the count of a gram is `List.count`. -/

/-- An n-gram multiset: the grams (with multiplicity) and the arity. -/
structure NgramSet where
  grams : List Str
  n : Nat
deriving DecidableEq

/-- Total count, `NgramSet::len` (the `size` field, maintained as the
sum of all counts). -/
def NgramSet.size (s : NgramSet) : Nat := s.grams.length

/-- `NgramSet::get`: the count of a gram (0 when absent). -/
def NgramSet.count (s : NgramSet) (g : Str) : Nat := s.grams.count g

/-- `NgramSet::from_str` / `analyze` (`src/ngram.rs:37`): split on the
single space character, slide a window of `n` words, record each window
joined by one space.  (The source's deque emits windows for `n ≥ 1`
exactly at start positions `0 .. words.len() - n`; `n = 0` emits
nothing.) -/
def NgramSet.from_str (s : Str) (n : Nat) : NgramSet :=
  let words := splitOnCharL ' ' s
  if n = 0 then ⟨[], n⟩
  else
    ⟨(List.range (words.length + 1 - n)).map
      (fun i => joinSep ' ' ((words.drop i).take n)), n⟩

/-- `Σ_g min(x[g], y[g])`, iterating the distinct grams of `x`: the
`matches` accumulator of `NgramSet::dice`. -/
def matchesCount (x y : NgramSet) : Nat :=
  (x.grams.dedup.map (fun g => min (x.count g) (y.count g))).sum

/-- `NgramSet::dice` (`src/ngram.rs:114`).  Arity mismatch returns `0`.
Otherwise the source computes `(2.0 * matches as f32) / ((self.len() +
other.len()) as f32)`, iterating the smaller set to accumulate
`matches`; when both sets are empty this is the IEEE division
`0.0 / 0.0 = NaN`, modeled as `none`.  (The source picks the smaller set
before dividing; the test for the empty denominator is hoisted here to
make the NaN case a definitional branch — both sets are empty exactly
when the denominator is zero, and then `matches` is `0` either way.) -/
def NgramSet.dice (a b : NgramSet) : Option Frac :=
  if b.n ≠ a.n then some fZero
  else if a.size + b.size = 0 then none
  else if a.size < b.size then
    some ⟨2 * matchesCount a b, a.size + b.size⟩
  else
    some ⟨2 * matchesCount b a, a.size + b.size⟩

/-! ## TextData (`src/license.rs`)

A `TextData` that retains its text holds `lines_normalized` and the view
`(lo, hi)`; `match_data` and `text_processed` are derived from exactly
the slice `[lo, hi)` for every value reachable through the public API,
so the model stores the lines and the view and derives the n-gram set. -/

/-- A `TextData` with retained normalized lines. -/
structure TextData where
  lines : List Str
  viewLo : Nat
  viewHi : Nat
deriving DecidableEq

/-- The slice `lines_normalized[lo..hi]` of the current view. -/
def TextData.sliceLines (t : TextData) : List Str :=
  (t.lines.drop t.viewLo).take (t.viewHi - t.viewLo)

/-- The aggressive-processed text of the current view
(`text_processed`): the slice joined with `\n`, then `apply_aggressive`. -/
def TextData.processed (t : TextData) : Str :=
  apply_aggressive (joinNL t.sliceLines)

/-- The bigram set of the current view (`match_data`); the engine uses
`n = 2` exclusively (`TextData::new`, `with_view`, `white_out`). -/
def TextData.match_data (t : TextData) : NgramSet :=
  NgramSet.from_str t.processed 2

/-- `TextData` built from already-normalized lines with the full view,
as `TextData::new` leaves it after `apply_normalizers`. -/
def TextData.ofLines (lines : List Str) : TextData :=
  ⟨lines, 0, lines.length⟩

/-- `TextData::lines_view`. -/
def TextData.lines_view (t : TextData) : Nat × Nat := (t.viewLo, t.viewHi)

/-- `TextData::with_view` (`src/license.rs:147`): re-derive the data for
the slice `[start, end)`.  The slice `lines[start..end]` panics unless
`start ≤ end ≤ lines.len()`; the panic is modeled as `none`. -/
def TextData.with_view (t : TextData) (a b : Nat) : Option TextData :=
  if a ≤ b ∧ b ≤ t.lines.length then some ⟨t.lines, a, b⟩ else none

/-- `TextData::match_score` (`src/license.rs:206`): Dice similarity of
the two match-data sets. -/
def TextData.match_score (t other : TextData) : Option Frac :=
  t.match_data.dice other.match_data

/-! ## Ternary search (`TextData::search_optimize`, `src/license.rs:249`)

`search` recurses on `[left, right]`; when the width is at most 3 it
evaluates every point and folds with `if x.1 >= acc.1 { x } else
{ acc }` from the initial accumulator `(0usize, 0f32)` — so a point
whose score is NaN never replaces the accumulator, and if every point is
NaN the fold returns index `0`, which may lie outside `[left, right]`.
The recursion is driven by a fuel argument; each recursive call shrinks
`right - left` by at least 2, so the entry fuel `right - left` always
reaches the base case with width at most 3, exactly like the source.
Memoization (`check_score`) is pure caching and does not change
values. -/

/-- One step of the base-case fold
`fold((0usize, 0f32), |acc, x| if x.1 >= acc.1 { x } else { acc })`:
a NaN score (`none`) never replaces the accumulator. -/
def stepFn (s : Nat → Option Frac) (acc : Nat × Frac) (x : Nat) : Nat × Frac :=
  match s x with
  | some v => if fLe acc.2 v then (x, v) else acc
  | none => acc

/-- The exhaustive base case over `[left, right]` inclusive. -/
def searchBase (s : Nat → Option Frac) (left right : Nat) : Nat × Frac :=
  ((List.range (right + 1 - left)).map (fun i => i + left)).foldl
    (stepFn s) (0, fZero)

/-- The recursion of `search`, on explicit fuel. -/
def searchGo (s : Nat → Option Frac) : Nat → Nat → Nat → Nat × Frac
  | 0, left, right => searchBase s left right
  | fuel + 1, left, right =>
    if right - left ≤ 3 then searchBase s left right
    else
      let low := (left * 2 + right) / 3
      let high := (left + right * 2) / 3
      if sGt (s low) (s high) then searchGo s fuel left (high - 1)
      else searchGo s fuel (low + 1) right

/-- `search` entered on `[left, right]` with sufficient fuel. -/
def searchRun (s : Nat → Option Frac) (left right : Nat) : Nat × Frac :=
  searchGo s (right - left) left right

/-- Score function of the end-bound search in `optimize_bounds`:
`|end| self.with_view(view.0, end).match_score(other)`.  Within the
searched range `[view.0, view.1]` the view is always valid, so the raw
structure is used directly. -/
def endScore (t other : TextData) (e : Nat) : Option Frac :=
  TextData.match_score ⟨t.lines, t.viewLo, e⟩ other

/-- Score function of the start-bound search:
`|start| end_optimized.with_view(start, new_end).match_score(other)`. -/
def startScore (t other : TextData) (newEnd st : Nat) : Option Frac :=
  TextData.match_score ⟨t.lines, st, newEnd⟩ other

/-- `TextData::optimize_bounds` (`src/license.rs:229`): ternary-search
the end bound with the start fixed at `view.0`, then the start bound
with the end fixed at the optimum; `value(optimal.0)` rebuilds the view
with `with_view`, whose panic (when the search escapes the range) is
modeled as `none`. -/
def TextData.optimize_bounds (t other : TextData) :
    Option (TextData × Frac) :=
  let a := t.viewLo
  let endRes := searchRun (endScore t other) a t.viewHi
  match t.with_view a endRes.1 with
  | none => none
  | some tEnd =>
    let newEnd := endRes.1
    let startRes := searchRun (startScore t other newEnd) a newEnd
    match tEnd.with_view startRes.1 newEnd with
    | none => none
    | some tFin => some (tFin, startRes.2)

end Askalono

namespace Askalono

/-! ## Store and analyzer (`src/store/base.rs`, `src/store/analyze.rs`)

The store's `HashMap<String, LicenseEntry>` is modeled as an association
list whose order stands for the iteration order of one run.  `Match` is
modeled without the deprecated `aliases` field (cloned alias names,
irrelevant to every claim). -/

/-- `LicenseType` (`src/license.rs:16`). -/
inductive LicenseType where
  | Original
  | Header
  | Alternate
deriving DecidableEq

/-- `LicenseEntry` (`src/store/base.rs:12`). -/
structure LicenseEntry where
  original : TextData
  aliases : List String
  headers : List TextData
  alternates : List TextData
deriving DecidableEq

/-- `Store` (`src/store/base.rs:40`). -/
structure Store where
  licenses : List (String × LicenseEntry)
deriving DecidableEq

/-- `PartialMatch` (`src/store/analyze.rs:41`). -/
structure PartialMatch where
  name : String
  score : Option Frac
  licenseType : LicenseType
  data : TextData
deriving DecidableEq

/-- `Match` (`src/store/analyze.rs:20`), without the deprecated
`aliases` field. -/
structure MatchR where
  score : Option Frac
  name : String
  licenseType : LicenseType
  data : TextData
deriving DecidableEq

/-- The candidates one `LicenseEntry` contributes to the analysis fold:
the original, then each alternate, then each header
(`src/store/analyze.rs:97-120`). -/
def entryCandidates (text : TextData) (name : String) (entry : LicenseEntry) :
    List PartialMatch :=
  ⟨name, entry.original.match_score text, LicenseType.Original, entry.original⟩ ::
    (entry.alternates.map (fun alt =>
      ⟨name, alt.match_score text, LicenseType.Alternate, alt⟩) ++
     entry.headers.map (fun head =>
      ⟨name, head.match_score text, LicenseType.Header, head⟩))

/-- All candidates of the single-threaded fold
(`Store::analyze_single_thread`), in store iteration order. -/
def candidatesOf (store : Store) (text : TextData) : List PartialMatch :=
  store.licenses.flatMap (fun p => entryCandidates text p.1 p.2)

/-- All candidate `TextData`s a store can ever match, in order. -/
def candidateDatas (store : Store) : List TextData :=
  store.licenses.flatMap (fun p =>
    p.2.original :: (p.2.alternates ++ p.2.headers))

/-- What `sort_unstable_by(|a, b| b.partial_cmp(a).unwrap())` guarantees
about its output when every compared score is an ordinary number: a
permutation of the input that is sorted descending by score.  Nothing
more is guaranteed — the relative order of equal scores is unspecified —
so the analyzers below take the sorting function as a parameter
constrained by this predicate. -/
def SortSpec (f : List PartialMatch → List PartialMatch) : Prop :=
  ∀ l : List PartialMatch, l ≠ [] → (∀ p ∈ l, p.score ≠ none) →
    (f l).Perm l ∧ (f l).Chain' (fun a b => sGe a.score b.score)

/-- Turn the winning `PartialMatch` into the returned `Match`
(`src/store/analyze.rs:133`). -/
def toMatch (p : PartialMatch) : MatchR :=
  ⟨p.score, p.name, p.licenseType, p.data⟩

/-- `Store::analyze_single_thread` (`src/store/analyze.rs:143`), up to
the choice of unstable sort.  Panics — modeled as `none` — arise from
`&res[0]` when the store is empty, and from
`partial_cmp(..).unwrap()` when the sort compares a NaN score (a sort of
two or more elements must compare each element at least once, so a NaN
score among two or more candidates always panics; a one-element sort
performs no comparison). -/
def analyze_st (sortFn : List PartialMatch → List PartialMatch)
    (store : Store) (text : TextData) : Option MatchR :=
  match candidatesOf store text with
  | [] => none
  | [m] => some (toMatch m)
  | res =>
    if res.any (fun p => decide (p.score = none)) then none
    else
      match sortFn res with
      | [] => none
      | m :: _ => some (toMatch m)

/-- `Store::analyze_parallel` (`src/store/analyze.rs:92`): rayon's
`par_iter().fold(..).reduce(Vec::new, extend)` splits the license list
into consecutive chunks, folds each chunk exactly as the sequential
closure does, and concatenates adjacent partial vectors in order, so the
pre-sort vector is the concatenation of the per-chunk candidate lists.
The chunking is a parameter (any partition of the license list into
consecutive runs); the final `par_sort_unstable_by` is again any
function satisfying `SortSpec`. -/
def analyze_parallel (sortFn : List PartialMatch → List PartialMatch)
    (chunks : List (List (String × LicenseEntry))) (text : TextData) :
    Option MatchR :=
  match chunks.flatMap (fun ch => ch.flatMap (fun p => entryCandidates text p.1 p.2)) with
  | [] => none
  | [m] => some (toMatch m)
  | res =>
    if res.any (fun p => decide (p.score = none)) then none
    else
      match sortFn res with
      | [] => none
      | m :: _ => some (toMatch m)

/-- An insertion sort, descending by score, stable: one concrete
function satisfying `SortSpec`, used to instantiate witnesses. -/
def insertDesc (p : PartialMatch) : List PartialMatch → List PartialMatch
  | [] => [p]
  | q :: rest => if sGt p.score q.score then p :: q :: rest
    else q :: insertDesc p rest

/-- Insertion sort by descending score. -/
def insSortDesc : List PartialMatch → List PartialMatch
  | [] => []
  | p :: rest => insertDesc p (insSortDesc rest)

end Askalono

namespace Askalono

/-! ## Binary cache (`src/store/cache.rs`, non-wasm path)

`from_cache` reads exactly eleven bytes with `read_exact` (an `Io` error
if the stream is shorter), compares them against `CACHE_VERSION`, and
only then hands the rest of the stream to the zstd decoder and the
MessagePack deserializer.  Compression and serialization live in
external crates; they are modeled as an opaque decoder (respectively
encoder) parameter, so the theorems hold for every possible decoder. -/

/-- Cache error kinds (§7 of the specification). -/
inductive CacheError where
  | io
  | cacheVersion
  | cacheCorrupt
deriving DecidableEq

/-- `CACHE_VERSION = b"askalono-04"` (`src/store/cache.rs:16`), as bytes. -/
def CACHE_VERSION : List Nat := [97, 115, 107, 97, 108, 111, 110, 111, 45, 48, 52]

/-- `Store::from_cache` (`src/store/cache.rs:26`), non-wasm path:
`read_exact` an 11-byte header, `bail!("cache version mismatch")` if it
differs from `CACHE_VERSION`, then decompress and deserialize the rest
(`decodeStore`, failure = `CacheCorrupt`). -/
def from_cache (decodeStore : List Nat → Option Store) (input : List Nat) :
    Except CacheError Store :=
  if input.length < 11 then Except.error CacheError.io
  else if input.take 11 ≠ CACHE_VERSION then Except.error CacheError.cacheVersion
  else
    match decodeStore (input.drop 11) with
    | some s => Except.ok s
    | none => Except.error CacheError.cacheCorrupt

/-- `Store::to_cache` (`src/store/cache.rs:72`), non-wasm path: write
`CACHE_VERSION`, then the zstd-compressed MessagePack payload
(`encodeStore`). -/
def to_cache (encodeStore : Store → List Nat) (s : Store) : List Nat :=
  CACHE_VERSION ++ encodeStore s

/-! ## Byte-level UTF-8 trimming (`trim_byte_adjusted`, `src/preproc.rs:134`)

For the UTF-8 safety claim the string is its byte sequence
(`List Nat`). -/

/-- Is a byte a UTF-8 continuation byte?  The source tests
`byte & 0b1100_0000 == 0b1000_0000`, which for a byte value is
equivalent to `128 ≤ b < 192`. -/
def isCont (b : Nat) : Bool := decide (128 ≤ b ∧ b < 192)

/-- Length of the UTF-8 sequence introduced by a lead byte, or `none`
for a byte that cannot start a sequence. -/
def seqLen (b : Nat) : Option Nat :=
  if b < 128 then some 1
  else if b < 192 then none
  else if b < 224 then some 2
  else if b < 240 then some 3
  else if b < 248 then some 4
  else none

/-- Well-formed UTF-8 byte sequences: a concatenation of complete
sequences, each a lead byte followed by its continuation bytes. -/
inductive ValidUtf8 : List Nat → Prop where
  | nil : ValidUtf8 []
  | cons (b : Nat) (cont rest : List Nat) :
      seqLen b = some (cont.length + 1) →
      (∀ c ∈ cont, isCont c = true) →
      ValidUtf8 rest → ValidUtf8 (b :: (cont ++ rest))

/-- `trim_byte_adjusted` (`src/preproc.rs:134`): return the whole string
when `idx` is at or past its end; return `s[..idx]` when `idx` is a
character boundary (`s.get(..idx)` is `Some` exactly when `idx = 0` or
the byte at `idx` is not a continuation byte); otherwise count the
continuation bytes at the end of `s[..idx]` and back up past them and
the lead byte.  The two panic sites of the source are modeled as
`none`: the `usize` subtraction `idx - trailing_continuation - 1`
underflowing, and the slice `&s[..k]` landing off a character boundary
(for `k < s.len()`, `is_char_boundary k` is `k = 0` or the byte at `k`
not being a continuation byte). -/
def trim_byte_adjusted (s : List Nat) (idx : Nat) : Option (List Nat) :=
  if s.length ≤ idx then some s
  else if idx = 0 ∨ isCont (s.getD idx 0) = false then some (s.take idx)
  else
    let trailing := ((s.take idx).reverse.takeWhile (fun b => isCont b)).length
    if trailing + 1 ≤ idx then
      if idx - trailing - 1 = 0 ∨ isCont (s.getD (idx - trailing - 1) 0) = false then
        some (s.take (idx - trailing - 1))
      else none
    else none

/-! ## ScanStrategy, TopDown mode (`src/strategy.rs`)

`scan_topdown` walks the document, calling
`topdown_find_contained_license` with a starting line, and repeats from
one line past each found result.  `topdown_find_contained_license` scans
windows `(start, end)` on a `step_size` grid — `for start in
(starting_at..text_end).step_by(step)`, `for end in
(start..=text_end).step_by(step)` — analyzing each window; once a score
meets the confidence threshold it keeps updating `found` with the
current window (an IEEE comparison with a NaN score neither breaks nor
blocks the update), and breaks out of both loops when a score drops
below the threshold after the threshold was hit.  The best coarse
window is then optimized and reported if it still meets the threshold.

The configured `confidence_threshold` is an `f32`; scores are
nonnegative, so a negative threshold behaves exactly like `0` in every
comparison and the model's nonnegative `Frac` loses nothing.
`step_by(0)` panics, modeled as `none`; the loop of `scan_topdown` is
driven by fuel `text_end + 1` (each iteration strictly advances the
start line, so the fuel never runs out when a result is produced). -/

/-- TopDown configuration: the confidence threshold and the step size. -/
structure ScanCfg where
  confidence_threshold : Frac
  step_size : Nat
deriving DecidableEq

/-- `ContainedResult` (`src/strategy.rs:50`). -/
structure ContainedResult where
  score : Frac
  name : String
  kind : LicenseType
  lineLo : Nat
  lineHi : Nat
deriving DecidableEq

/-- `ScanResult` (`src/strategy.rs:38`). -/
structure ScanResultR where
  score : Frac
  license : Option (String × LicenseType)
  containing : List ContainedResult
deriving DecidableEq

/-- The `hit_threshold` flag and the `found` triple of
`topdown_find_contained_license`. -/
structure TDState where
  hit : Bool
  found : Option (Nat × Nat × MatchR)
deriving DecidableEq

/-- `Range::step_by` as a list: from `start`, stepping by `step`, while
below `stop`; structural fuel (`stop - start` suffices for any positive
step). -/
def rangeStepGo (step : Nat) : Nat → Nat → Nat → List Nat
  | 0, _, _ => []
  | fuel + 1, start, stop =>
    if start < stop then start :: rangeStepGo step fuel (start + step) stop
    else []

/-- `(start..stop).step_by(step)`. -/
def rangeStepExcl (start stop step : Nat) : List Nat :=
  rangeStepGo step (stop - start) start stop

/-- `(start..=stop).step_by(step)`. -/
def rangeStepIncl (start stop step : Nat) : List Nat :=
  rangeStepExcl start (stop + 1) step

/-- The inner `end` loop of `topdown_find_contained_license`
(`src/strategy.rs:306-339`).  Returns `none` on a panic, otherwise the
updated state and whether `break 'start` was taken. -/
def tdEndLoop (sortFn : List PartialMatch → List PartialMatch)
    (cfg : ScanCfg) (store : Store) (text : TextData) (st : Nat) :
    List Nat → TDState → Option (TDState × Bool)
  | [], state => some (state, false)
  | en :: rest, state =>
    match text.with_view st en with
    | none => none
    | some v =>
      match analyze_st sortFn store v with
      | none => none
      | some m =>
        let hit1 := state.hit || sGe m.score (some cfg.confidence_threshold)
        if hit1 then
          if sLt m.score (some cfg.confidence_threshold) then
            some (⟨hit1, state.found⟩, true)
          else tdEndLoop sortFn cfg store text st rest ⟨hit1, some (st, en, m)⟩
        else tdEndLoop sortFn cfg store text st rest ⟨hit1, state.found⟩

/-- The outer `start` loop of `topdown_find_contained_license`
(`src/strategy.rs:304`). -/
def tdStartLoop (sortFn : List PartialMatch → List PartialMatch)
    (cfg : ScanCfg) (store : Store) (text : TextData) :
    List Nat → TDState → Option TDState
  | [], state => some state
  | st :: rest, state =>
    match tdEndLoop sortFn cfg store text st
        (rangeStepIncl st text.viewHi cfg.step_size) state with
    | none => none
    | some (state1, brk) =>
      if brk then some state1
      else tdStartLoop sortFn cfg store text rest state1

/-- `ScanStrategy::topdown_find_contained_license`
(`src/strategy.rs:281`). -/
def topdown_find_contained_license
    (sortFn : List PartialMatch → List PartialMatch) (cfg : ScanCfg)
    (store : Store) (text : TextData) (startingAt : Nat) :
    Option (Option ContainedResult) :=
  if cfg.step_size = 0 then none
  else
    match tdStartLoop sortFn cfg store text
        (rangeStepExcl startingAt text.viewHi cfg.step_size) ⟨false, none⟩ with
    | none => none
    | some state =>
      match state.found with
      | none => some none
      | some (s0, e0, m) =>
        match text.with_view s0 e0 with
        | none => none
        | some v =>
          match v.optimize_bounds m.data with
          | none => none
          | some (opt, sc) =>
            if fLt sc cfg.confidence_threshold then some none
            else some (some ⟨sc, m.name, m.licenseType, opt.viewLo, opt.viewHi⟩)

/-- The `while current_start < text_end` loop of `scan_topdown`
(`src/strategy.rs:262-272`), on fuel. -/
def scanTopdownGo (sortFn : List PartialMatch → List PartialMatch)
    (cfg : ScanCfg) (store : Store) (text : TextData) :
    Nat → Nat → List ContainedResult → Option ScanResultR
  | 0, _, _ => none
  | fuel + 1, k, acc =>
    if k < text.viewHi then
      match topdown_find_contained_license sortFn cfg store text k with
      | none => none
      | some none => some ⟨fZero, none, acc⟩
      | some (some c) =>
        scanTopdownGo sortFn cfg store text fuel (c.lineHi + 1) (acc ++ [c])
    else some ⟨fZero, none, acc⟩

/-- `ScanStrategy::scan_topdown` (`src/strategy.rs:256`): the result
always carries `score: 0.0` and `license: None`. -/
def scan_topdown (sortFn : List PartialMatch → List PartialMatch)
    (cfg : ScanCfg) (store : Store) (text : TextData) : Option ScanResultR :=
  scanTopdownGo sortFn cfg store text (text.viewHi + 1) 0 []

/-- The document-order/disjointness property claimed for TopDown
results: consecutive `ContainedResult`s satisfy
`next.line_range.0 ≥ previous.line_range.1 + 1`. -/
def containedOrdered (l : List ContainedResult) : Prop :=
  l.Chain' (fun c1 c2 => c1.lineHi + 1 ≤ c2.lineLo)

/-- Provenance of the `found` register of the TopDown loops: any
recorded window began at or after the starting line, had a valid view,
and carries the analyzer result of that window. -/
def FoundInv (sf : List PartialMatch → List PartialMatch) (store : Store)
    (text : TextData) (k : Nat) (found : Option (Nat × Nat × MatchR)) : Prop :=
  ∀ s0 e0 m, found = some (s0, e0, m) →
    k ≤ s0 ∧ ∃ v, text.with_view s0 e0 = some v ∧ analyze_st sf store v = some m

/-! ## Concrete stores and texts used in counterexamples and witnesses -/

/-- A `TextData` whose match data is empty: `TextData::from("")`. -/
def emptyText : TextData := TextData.ofLines [str ""]

/-- A license entry whose original text is empty. -/
def emptyEntry : LicenseEntry := ⟨emptyText, [], [], []⟩

/-- A store with no licenses. -/
def emptyStore : Store := ⟨[]⟩

/-- A store with two licenses both built from the empty string. -/
def twoEmptyStore : Store := ⟨[("e1", emptyEntry), ("e2", emptyEntry)]⟩

/-- An ordinary one-license store. -/
def oneStore : Store := ⟨[("L", ⟨TextData.ofLines [str "aa bb"], [], [], []⟩)]⟩

/-- Two licenses with identical texts: their analysis scores tie. -/
def tieEntry : LicenseEntry := ⟨TextData.ofLines [str "x y"], [], [], []⟩

/-- A store in which licenses `A` and `B` have identical texts. -/
def tieStore : Store := ⟨[("A", tieEntry), ("B", tieEntry)]⟩

/-- Sorting via the reversed input: a second function satisfying
`SortSpec`, which orders tied scores oppositely to `insSortDesc`. -/
def revSortDesc (l : List PartialMatch) : List PartialMatch :=
  insSortDesc l.reverse

/-- Lines for the view-escape counterexample: one two-word line at
index 5 surrounded by blank lines. -/
def escLines : List Str :=
  [str "", str "", str "", str "", str "", str "aa bb", str "", str "",
    str "", str ""]

/-- The view-escape input: view `(5, 10)` of `escLines`. -/
def escText : TextData := ⟨escLines, 5, 10⟩

/-- Six one-word lines for the score-worsening counterexample. -/
def worseText : TextData :=
  TextData.ofLines [str "aa", str "bb", str "cc", str "dd", str "ee", str "ff"]

/-- The compared text for the score-worsening counterexample: its
bigrams reward the full view of `worseText` most, but mislead the
ternary search into the prefix. -/
def worseOther : TextData := TextData.ofLines [str "aa bb dd ee ff"]

/-- Concrete value equality on score options (`f32` `==` semantics on
ordinary values; NaN compares equal to nothing, but the claims below
only use this on ordinary scores). -/
def scoreEqB : Option Frac → Option Frac → Bool
  | none, none => true
  | some x, some y => decide (fEq x y)
  | _, _ => false

/-- Agreement of two analyzer outcomes as the specification demands:
both panic, or both return matches with the same score value, license
name and license type. -/
def sameOutcome : Option MatchR → Option MatchR → Bool
  | none, none => true
  | some a, some b =>
    decide (a.name = b.name) && decide (a.licenseType = b.licenseType) &&
      scoreEqB a.score b.score
  | _, _ => false

/-- The claim that analysis results never depend on the parallel
chunking or on the unstable sorts used by the two analyzer paths. -/
def AnalyzeParallelismIndependent : Prop :=
  ∀ (store : Store) (text : TextData)
    (sf1 sf2 : List PartialMatch → List PartialMatch)
    (chunks : List (List (String × LicenseEntry))),
    SortSpec sf1 → SortSpec sf2 → chunks.flatten = store.licenses →
    sameOutcome (analyze_parallel sf1 chunks text)
      (analyze_st sf2 store text) = true

/-- A candidate that no other candidate strictly beats, and which every
candidate with the same score matches in name and type: under this
condition the top of any descending sort is determined. -/
def TopUnique (l : List PartialMatch) : Prop :=
  ∀ c d, c ∈ l → d ∈ l →
    (∀ e ∈ l, sGe c.score e.score = true) →
    (∀ e ∈ l, sGe d.score e.score = true) →
    c.name = d.name ∧ c.licenseType = d.licenseType

end Askalono

namespace Askalono

/-! ## Basic lemmas about fractions, scores and the sort -/

theorem fLe_refl (x : Frac) : fLe x x := le_refl _

theorem fLe_zero (f : Frac) : fLe fZero f := by
  simp [fLe, fZero]

theorem fLe_trans {x y z : Frac} (hy : 0 < y.den) (h1 : fLe x y)
    (h2 : fLe y z) : fLe x z := by
  unfold fLe at h1 h2 ⊢
  refine Nat.le_of_mul_le_mul_right ?_ hy
  calc x.num * z.den * y.den = x.num * y.den * z.den := by ring
    _ ≤ y.num * x.den * z.den := Nat.mul_le_mul h1 (le_refl z.den)
    _ = y.num * z.den * x.den := by ring
    _ ≤ z.num * y.den * x.den := Nat.mul_le_mul h2 (le_refl x.den)
    _ = z.num * x.den * y.den := by ring

theorem sGt_imp_sGe {a b : Option Frac} (h : sGt a b = true) : sGe a b = true := by
  cases a <;> cases b <;> simp_all [sGt, sGe, fLt, fLe]
  omega

theorem sGe_of_not_sGt {x y : Frac} (h : ¬ sGt (some x) (some y) = true) :
    sGe (some y) (some x) = true := by
  simp only [sGt, decide_eq_true_eq] at h
  simp only [sGe, decide_eq_true_eq]
  unfold fLt at h
  unfold fLe
  omega

theorem insertDesc_perm (p : PartialMatch) (l : List PartialMatch) :
    (insertDesc p l).Perm (p :: l) := by
  induction l with
  | nil => simp [insertDesc]
  | cons q rest ih =>
    simp only [insertDesc]
    by_cases h : sGt p.score q.score
    · simp [h]
    · simp only [h, if_false]
      exact ((ih.cons q).trans (List.Perm.swap p q rest))

theorem insertDesc_chain' (p : PartialMatch) (l : List PartialMatch)
    (hp : p.score ≠ none) (hl : ∀ q ∈ l, q.score ≠ none)
    (h : l.Chain' (fun a b => sGe a.score b.score)) :
    (insertDesc p l).Chain' (fun a b => sGe a.score b.score) := by
  induction l with
  | nil => simp [insertDesc]
  | cons q rest ih =>
    simp only [insertDesc]
    by_cases hgt : sGt p.score q.score
    · simp only [hgt, if_true]
      exact List.Chain'.cons (sGt_imp_sGe hgt) h
    · simp only [hgt, if_false]
      have hq : q.score ≠ none := hl q (by simp)
      obtain ⟨x, hx⟩ := Option.ne_none_iff_exists'.mp hp
      obtain ⟨y, hy⟩ := Option.ne_none_iff_exists'.mp hq
      have hqp : sGe q.score p.score = true := by
        rw [hx, hy]; exact sGe_of_not_sGt (by rwa [hx, hy] at hgt)
      have hrest : rest.Chain' (fun a b => sGe a.score b.score) :=
        (List.chain'_cons'.mp h).2
      have hins := ih (fun r hr => hl r (by simp [hr])) hrest
      refine List.chain'_cons'.mpr ⟨?_, hins⟩
      intro z hz
      cases rest with
      | nil =>
        simp [insertDesc] at hz
        subst hz; exact hqp
      | cons r rest' =>
        simp only [insertDesc] at hz
        by_cases hr : sGt p.score r.score
        · simp [hr] at hz; subst hz; exact hqp
        · simp [hr] at hz; subst hz
          exact (List.chain'_cons.mp h).1

theorem insSortDesc_perm (l : List PartialMatch) : (insSortDesc l).Perm l := by
  induction l with
  | nil => simp [insSortDesc]
  | cons p rest ih =>
    exact (insertDesc_perm p (insSortDesc rest)).trans (ih.cons p)

theorem insSortDesc_chain' (l : List PartialMatch)
    (hsome : ∀ p ∈ l, p.score ≠ none) :
    (insSortDesc l).Chain' (fun a b => sGe a.score b.score) := by
  induction l with
  | nil => simp [insSortDesc]
  | cons p rest ih =>
    have hrest : ∀ q ∈ rest, q.score ≠ none := fun q hq => hsome q (by simp [hq])
    have hmem : ∀ q ∈ insSortDesc rest, q.score ≠ none := fun q hq =>
      hrest q ((insSortDesc_perm rest).mem_iff.mp hq)
    exact insertDesc_chain' p (insSortDesc rest) (hsome p (by simp)) hmem
      (ih hrest)

theorem insSortDesc_spec : SortSpec insSortDesc :=
  fun l _ hsome => ⟨insSortDesc_perm l, insSortDesc_chain' l hsome⟩

/-- A non-empty store always yields at least one candidate (each entry
contributes its original at the least). -/
theorem candidatesOf_ne_nil (store : Store) (text : TextData)
    (h : store.licenses ≠ []) : candidatesOf store text ≠ [] := by
  unfold candidatesOf
  cases hls : store.licenses with
  | nil => exact absurd hls h
  | cons p rest => simp [entryCandidates]

/-! ## Lemmas about `dice` -/

theorem dice_some_of {a b : NgramSet} (hn : a.n = b.n)
    (hs : a.size + b.size ≠ 0) :
    ∃ f, a.dice b = some f ∧ f.den = a.size + b.size := by
  unfold NgramSet.dice
  rw [if_neg (fun hne => hne hn.symm), if_neg hs]
  split <;> exact ⟨_, rfl, rfl⟩

theorem dice_den_pos {a b : NgramSet} {f : Frac} (h : a.dice b = some f) :
    0 < f.den := by
  unfold NgramSet.dice at h
  split at h
  · simp only [Option.some.injEq] at h
    subst h; exact Nat.one_pos
  · split at h
    · simp at h
    · split at h <;>
      · simp only [Option.some.injEq] at h
        subst h
        simp only []
        omega

theorem dice_none_iff {a b : NgramSet} :
    a.dice b = none ↔ a.n = b.n ∧ a.size = 0 ∧ b.size = 0 := by
  unfold NgramSet.dice
  constructor
  · intro h
    split at h
    · simp at h
    · split at h
      · rename_i hne hz
        exact ⟨(not_ne_iff.mp hne).symm, by omega, by omega⟩
      · split at h <;> simp at h
  · rintro ⟨hn, ha, hb⟩
    rw [if_neg (fun hne => hne hn.symm), if_pos (by omega)]

theorem size_zero_grams {a : NgramSet} (h : a.size = 0) : a.grams = [] :=
  List.length_eq_zero.mp h

theorem matchesCount_left_empty {a b : NgramSet} (h : a.grams = []) :
    matchesCount a b = 0 := by
  unfold matchesCount
  rw [h]
  rfl

theorem dice_one_empty_left {a b : NgramSet} (hn : a.n = b.n)
    (ha : a.size = 0) (hb : b.size ≠ 0) :
    a.dice b = some ⟨0, b.size⟩ := by
  unfold NgramSet.dice
  rw [if_neg (fun hne => hne hn.symm), if_neg (by omega),
    if_pos (by omega)]
  rw [matchesCount_left_empty (size_zero_grams ha)]
  simp [ha]

theorem dice_one_empty_right {a b : NgramSet} (hn : a.n = b.n)
    (ha : a.size ≠ 0) (hb : b.size = 0) :
    a.dice b = some ⟨0, a.size⟩ := by
  unfold NgramSet.dice
  rw [if_neg (fun hne => hne hn.symm), if_neg (by omega),
    if_neg (by omega)]
  rw [matchesCount_left_empty (size_zero_grams hb)]
  simp [hb]

theorem from_str_n (s : Str) (n : Nat) : (NgramSet.from_str s n).n = n := by
  unfold NgramSet.from_str
  split <;> rfl

theorem match_data_n (t : TextData) : t.match_data.n = 2 :=
  from_str_n _ 2

theorem match_score_some_of_right {t other : TextData}
    (h : other.match_data.size ≠ 0) :
    ∃ f, t.match_score other = some f ∧ 0 < f.den := by
  obtain ⟨f, hf, hden⟩ := dice_some_of
    (a := t.match_data) (b := other.match_data)
    (by rw [match_data_n, match_data_n]) (by omega)
  exact ⟨f, hf, by omega⟩

end Askalono

namespace Askalono

/-! ## Lemmas about the ternary search

The score functions fed to the search are always `dice` results, so
every ordinary score has a positive denominator; the lemmas carry that
fact as the hypothesis `hs`. -/

/-- Positive-denominator condition on a score function. -/
def DenPos (s : Nat → Option Frac) : Prop :=
  ∀ x v, s x = some v → 0 < v.den

theorem stepFn_den_pos {s : Nat → Option Frac} (hs : DenPos s)
    {acc : Nat × Frac} (hacc : 0 < acc.2.den) (x : Nat) :
    0 < (stepFn s acc x).2.den := by
  unfold stepFn
  cases hx : s x with
  | none => exact hacc
  | some v =>
    by_cases hc : fLe acc.2 v
    · show 0 < (if fLe acc.2 v then (x, v) else acc).2.den
      rw [if_pos hc]
      exact hs x v hx
    · show 0 < (if fLe acc.2 v then (x, v) else acc).2.den
      rw [if_neg hc]
      exact hacc

theorem stepFn_snd_mono {s : Nat → Option Frac} (acc : Nat × Frac) (x : Nat) :
    fLe acc.2 (stepFn s acc x).2 := by
  unfold stepFn
  cases hx : s x with
  | none => exact fLe_refl _
  | some v =>
    by_cases hc : fLe acc.2 v
    · simp only [hc, if_true]
    · simp only [hc, if_false]
      exact fLe_refl _

theorem foldl_step_snd_mono {s : Nat → Option Frac} (hs : DenPos s)
    (xs : List Nat) (acc : Nat × Frac) (hacc : 0 < acc.2.den) :
    fLe acc.2 ((xs.foldl (stepFn s) acc)).2 ∧
      0 < ((xs.foldl (stepFn s) acc)).2.den := by
  induction xs generalizing acc with
  | nil => exact ⟨fLe_refl _, hacc⟩
  | cons y ys ih =>
    have hden := stepFn_den_pos hs hacc y
    obtain ⟨h1, h2⟩ := ih (stepFn s acc y) hden
    exact ⟨fLe_trans hden (stepFn_snd_mono acc y) h1, h2⟩

theorem foldl_step_ge {s : Nat → Option Frac} (hs : DenPos s)
    (xs : List Nat) (acc : Nat × Frac) (hacc : 0 < acc.2.den)
    {x : Nat} {v : Frac} (hx : x ∈ xs) (hv : s x = some v) :
    fLe v ((xs.foldl (stepFn s) acc)).2 := by
  induction xs generalizing acc with
  | nil => cases hx
  | cons y ys ih =>
    have hden := stepFn_den_pos hs hacc y
    rcases List.mem_cons.mp hx with rfl | hmem
    · refine fLe_trans hden ?_ (foldl_step_snd_mono hs ys (stepFn s acc x) hden).1
      unfold stepFn
      rw [hv]
      by_cases hc : fLe acc.2 v
      · simp only [hc, if_true]
        exact fLe_refl v
      · simp only [hc, if_false]
        unfold fLe at hc ⊢
        omega
    · exact ih (stepFn s acc y) hden hmem

/-- Accumulator invariant: the index is inside `[l, r]` and the stored
score is the score of the stored index. -/
def GoodAcc (s : Nat → Option Frac) (l r : Nat) (acc : Nat × Frac) : Prop :=
  l ≤ acc.1 ∧ acc.1 ≤ r ∧ s acc.1 = some acc.2

theorem stepFn_good {s : Nat → Option Frac} {l r : Nat} {acc : Nat × Frac}
    {x : Nat} (hacc : GoodAcc s l r acc) (hx : l ≤ x ∧ x ≤ r) :
    GoodAcc s l r (stepFn s acc x) := by
  unfold stepFn
  cases hsx : s x with
  | none => exact hacc
  | some v =>
    by_cases hc : fLe acc.2 v
    · simp only [hc, if_true]
      exact ⟨hx.1, hx.2, hsx⟩
    · simpa [hc] using hacc

theorem foldl_step_good {s : Nat → Option Frac} {l r : Nat} {xs : List Nat}
    {acc : Nat × Frac} (hacc : GoodAcc s l r acc)
    (hxs : ∀ x ∈ xs, l ≤ x ∧ x ≤ r) :
    GoodAcc s l r (xs.foldl (stepFn s) acc) := by
  induction xs generalizing acc with
  | nil => exact hacc
  | cons y ys ih =>
    exact ih (stepFn_good hacc (hxs y (by simp))) (fun x hx => hxs x (by simp [hx]))

theorem rangeMap_mem {l r x : Nat}
    (hx : x ∈ (List.range (r + 1 - l)).map (fun i => i + l)) :
    l ≤ x ∧ x ≤ r := by
  simp only [List.mem_map, List.mem_range] at hx
  obtain ⟨i, hi, rfl⟩ := hx
  omega

theorem rangeMap_cons {l r : Nat} (h : l ≤ r) :
    (List.range (r + 1 - l)).map (fun i => i + l) =
      l :: (List.range (r - l)).map (fun i => i + (l + 1)) := by
  have hk : r + 1 - l = (r - l) + 1 := by omega
  rw [hk, List.range_succ_eq_map]
  simp only [List.map_cons, List.map_map, Nat.zero_add]
  refine congrArg (l :: ·) ?_
  refine List.map_congr_left (fun i _ => ?_)
  simp only [Function.comp_apply]
  omega

/-- If the first point of the range has an ordinary score, the fold
leaves the fallback accumulator and the result indexes a point of
`[l, r]` carrying its own score.  (`0.0 <= v` holds for every
nonnegative fraction, so the first ordinary score always replaces the
initial `(0, 0.0)`.) -/
theorem searchBase_good {s : Nat → Option Frac} {l r : Nat} {v : Frac}
    (hlr : l ≤ r) (hl : s l = some v) :
    GoodAcc s l r (searchBase s l r) := by
  unfold searchBase
  rw [rangeMap_cons hlr]
  simp only [List.foldl_cons]
  have h1 : stepFn s (0, fZero) l = (l, v) := by
    unfold stepFn
    rw [hl]
    simp [fLe_zero]
  rw [h1]
  exact foldl_step_good ⟨le_rfl, hlr, hl⟩
    (fun x hx => by
      have := rangeMap_mem (l := l + 1) (r := r) (x := x) ?_
      · omega
      · simpa [Nat.sub_sub] using hx)

theorem searchBase_max {s : Nat → Option Frac} (hs : DenPos s)
    {l r x : Nat} {v : Frac} (hx : l ≤ x) (hxr : x ≤ r)
    (hv : s x = some v) : fLe v (searchBase s l r).2 := by
  unfold searchBase
  refine foldl_step_ge hs _ _ (by simp [fZero]) ?_ hv
  simp only [List.mem_map, List.mem_range]
  exact ⟨x - l, by omega, by omega⟩

theorem searchBase_allnone {s : Nat → Option Frac} {l r : Nat}
    (hs : ∀ x, l ≤ x → x ≤ r → s x = none) :
    searchBase s l r = (0, fZero) := by
  unfold searchBase
  have hfold : ∀ xs : List Nat, (∀ x ∈ xs, s x = none) →
      xs.foldl (stepFn s) (0, fZero) = (0, fZero) := by
    intro xs
    induction xs with
    | nil => intro _; rfl
    | cons y ys ih =>
      intro hall
      simp only [List.foldl_cons]
      have hy : stepFn s (0, fZero) y = (0, fZero) := by
        unfold stepFn
        rw [hall y (by simp)]
      rw [hy]
      exact ih (fun x hx => hall x (by simp [hx]))
  refine hfold _ (fun x hx => ?_)
  have := rangeMap_mem hx
  exact hs x this.1 this.2

theorem searchGo_sub (s : Nat → Option Frac) :
    ∀ fuel l r, l ≤ r →
      ∃ l' r', l ≤ l' ∧ l' ≤ r' ∧ r' ≤ r ∧
        searchGo s fuel l r = searchBase s l' r' ∧
        (r - l ≤ fuel + 3 → r' - l' ≤ 3) := by
  intro fuel
  induction fuel with
  | zero =>
    intro l r hlr
    exact ⟨l, r, le_rfl, hlr, le_rfl, rfl, fun h => by omega⟩
  | succ fuel ih =>
    intro l r hlr
    by_cases hw : r - l ≤ 3
    · refine ⟨l, r, le_rfl, hlr, le_rfl, ?_, fun _ => hw⟩
      rw [searchGo]
      rw [if_pos hw]
    · have h4 : l + 4 ≤ r := by omega
      rw [searchGo]
      rw [if_neg hw]
      by_cases hgt : sGt (s ((l * 2 + r) / 3)) (s ((l + r * 2) / 3))
      · obtain ⟨l', r', h1, h2, h3, h5, h6⟩ :=
          ih l ((l + r * 2) / 3 - 1) (by omega)
        refine ⟨l', r', h1, h2, by omega, by simpa [hgt] using h5, ?_⟩
        intro h
        exact h6 (by omega)
      · obtain ⟨l', r', h1, h2, h3, h5, h6⟩ :=
          ih ((l * 2 + r) / 3 + 1) r (by omega)
        refine ⟨l', r', by omega, h2, h3, by simpa [hgt] using h5, ?_⟩
        intro h
        exact h6 (by omega)

theorem searchGo_right {s : Nat → Option Frac}
    (hs : ∀ x, s x = none ∨ ∃ v, s x = some v ∧ v.num = 0) :
    ∀ fuel l r, l ≤ r →
      ∃ l', l ≤ l' ∧ l' ≤ r ∧
        searchGo s fuel l r = searchBase s l' r ∧
        (r - l ≤ fuel + 3 → r - l' ≤ 3) := by
  have hgtf : ∀ x y : Nat, sGt (s x) (s y) = false := by
    intro x y
    rcases hs x with hx | ⟨v, hv, hv0⟩ <;> rcases hs y with hy | ⟨w, hw, hw0⟩ <;>
      simp_all [sGt, fLt]
  intro fuel
  induction fuel with
  | zero =>
    intro l r hlr
    exact ⟨l, le_rfl, hlr, rfl, fun h => by omega⟩
  | succ fuel ih =>
    intro l r hlr
    by_cases hw : r - l ≤ 3
    · refine ⟨l, le_rfl, hlr, ?_, fun _ => hw⟩
      rw [searchGo]
      rw [if_pos hw]
    · rw [searchGo]
      rw [if_neg hw]
      simp only [hgtf, Bool.false_eq_true, if_false]
      obtain ⟨l', h1, h2, h3, h4⟩ := ih ((l * 2 + r) / 3 + 1) r (by omega)
      refine ⟨l', by omega, h2, h3, ?_⟩
      intro h
      exact h4 (by omega)

theorem searchRun_sub (s : Nat → Option Frac) {l r : Nat} (hlr : l ≤ r) :
    ∃ l' r', l ≤ l' ∧ l' ≤ r' ∧ r' ≤ r ∧
      searchRun s l r = searchBase s l' r' ∧ r' - l' ≤ 3 := by
  obtain ⟨l', r', h1, h2, h3, h4, h5⟩ := searchGo_sub s (r - l) l r hlr
  exact ⟨l', r', h1, h2, h3, h4, h5 (by omega)⟩

theorem searchRun_right {s : Nat → Option Frac}
    (hs : ∀ x, s x = none ∨ ∃ v, s x = some v ∧ v.num = 0)
    {l r : Nat} (hlr : l ≤ r) :
    ∃ l', l ≤ l' ∧ l' ≤ r ∧
      searchRun s l r = searchBase s l' r ∧ r - l' ≤ 3 := by
  obtain ⟨l', h1, h2, h3, h4⟩ := searchGo_right hs (r - l) l r hlr
  exact ⟨l', h1, h2, h3, h4 (by omega)⟩

theorem searchRun_small {s : Nat → Option Frac} {l r : Nat} (h : r - l ≤ 3) :
    searchRun s l r = searchBase s l r := by
  unfold searchRun
  cases hf : r - l with
  | zero => rfl
  | succ k =>
    rw [searchGo]
    rw [if_pos (hf ▸ h)]

end Askalono

namespace Askalono

/-! ## Lemmas about `optimize_bounds` -/

theorem with_view_eq {t : TextData} {a b : Nat} (h1 : a ≤ b)
    (h2 : b ≤ t.lines.length) : t.with_view a b = some ⟨t.lines, a, b⟩ := by
  unfold TextData.with_view
  rw [if_pos ⟨h1, h2⟩]

theorem endScore_at_viewHi (t other : TextData) :
    endScore t other t.viewHi = t.match_score other := rfl

theorem endScore_den_pos (t other : TextData)
    (hne : other.match_data.size ≠ 0) : DenPos (endScore t other) := by
  intro x v hv
  unfold endScore at hv
  obtain ⟨f, hf, hden⟩ := match_score_some_of_right
    (t := ⟨t.lines, t.viewLo, x⟩) hne
  rw [hv] at hf
  cases hf
  exact hden

theorem startScore_den_pos (t other : TextData) (newEnd : Nat)
    (hne : other.match_data.size ≠ 0) : DenPos (startScore t other newEnd) := by
  intro x v hv
  unfold startScore at hv
  obtain ⟨f, hf, hden⟩ := match_score_some_of_right
    (t := ⟨t.lines, x, newEnd⟩) hne
  rw [hv] at hf
  cases hf
  exact hden

/-- When the compared `TextData` has nonempty match data, no score in
either search is NaN, so both searches stay inside their ranges, every
`with_view` succeeds, and the optimized view lies inside the caller's
view. -/
theorem optimize_bounds_inbounds {t other : TextData}
    (hvalid : t.viewLo ≤ t.viewHi) (hlen : t.viewHi ≤ t.lines.length)
    (hne : other.match_data.size ≠ 0) :
    ∃ t' sc, t.optimize_bounds other = some (t', sc) ∧
      t'.lines = t.lines ∧ t.viewLo ≤ t'.viewLo ∧ t'.viewLo ≤ t'.viewHi ∧
      t'.viewHi ≤ t.viewHi := by
  obtain ⟨l', r', ha1, ha2, ha3, heq, _⟩ :=
    searchRun_sub (endScore t other) hvalid
  obtain ⟨v, hv, _⟩ :=
    match_score_some_of_right (t := ⟨t.lines, t.viewLo, l'⟩) hne
  have hgood : GoodAcc (endScore t other) l' r'
      (searchRun (endScore t other) t.viewLo t.viewHi) := by
    rw [heq]
    exact searchBase_good ha2 hv
  obtain ⟨hg1, hg2, hg3⟩ := hgood
  set ne := (searchRun (endScore t other) t.viewLo t.viewHi).1 with hne_def
  have hane : t.viewLo ≤ ne := le_trans ha1 hg1
  have hneb : ne ≤ t.viewHi := le_trans hg2 ha3
  obtain ⟨m', n', hb1, hb2, hb3, heq2, _⟩ :=
    searchRun_sub (startScore t other ne) hane
  obtain ⟨w, hw, _⟩ :=
    match_score_some_of_right (t := ⟨t.lines, m', ne⟩) hne
  have hgood2 : GoodAcc (startScore t other ne) m' n'
      (searchRun (startScore t other ne) t.viewLo ne) := by
    rw [heq2]
    exact searchBase_good hb2 hw
  obtain ⟨hh1, hh2, hh3⟩ := hgood2
  set st := (searchRun (startScore t other ne) t.viewLo ne).1 with hst_def
  have hast : t.viewLo ≤ st := le_trans hb1 hh1
  have hstne : st ≤ ne := le_trans hh2 hb3
  refine ⟨⟨t.lines, st, ne⟩,
    (searchRun (startScore t other ne) t.viewLo ne).2, ?_, rfl, hast,
    hstne, hneb⟩
  simp only [TextData.optimize_bounds]
  rw [← hne_def]
  rw [with_view_eq hane (le_trans hneb hlen)]
  simp only
  rw [← hst_def]
  rw [with_view_eq (t := ⟨t.lines, t.viewLo, ne⟩) hstne (le_trans hneb hlen)]

/-- When the caller's view spans at most three lines, both searches are
exhaustive over their full ranges, so the returned score is at least the
caller's own match score against `other`. -/
theorem optimize_bounds_small_ge {t other : TextData}
    (hvalid : t.viewLo ≤ t.viewHi) (hlen : t.viewHi ≤ t.lines.length)
    (hw : t.viewHi - t.viewLo ≤ 3) (hne : other.match_data.size ≠ 0) :
    ∃ t' sc q, t.optimize_bounds other = some (t', sc) ∧
      t.match_score other = some q ∧ fLe q sc := by
  have hdp := endScore_den_pos t other hne
  have heq : searchRun (endScore t other) t.viewLo t.viewHi =
      searchBase (endScore t other) t.viewLo t.viewHi := searchRun_small hw
  obtain ⟨v, hv, _⟩ :=
    match_score_some_of_right (t := ⟨t.lines, t.viewLo, t.viewLo⟩) hne
  have hgood : GoodAcc (endScore t other) t.viewLo t.viewHi
      (searchRun (endScore t other) t.viewLo t.viewHi) := by
    rw [heq]
    exact searchBase_good hvalid hv
  obtain ⟨hg1, hg2, hg3⟩ := hgood
  set ne := (searchRun (endScore t other) t.viewLo t.viewHi).1 with hne_def
  obtain ⟨q, hq, _⟩ := match_score_some_of_right (t := t) hne
  have hqle : fLe q (searchRun (endScore t other) t.viewLo t.viewHi).2 := by
    rw [heq]
    refine searchBase_max hdp hvalid le_rfl ?_
    rw [endScore_at_viewHi]
    exact hq
  have hdp2 := startScore_den_pos t other ne hne
  have heq2 : searchRun (startScore t other ne) t.viewLo ne =
      searchBase (startScore t other ne) t.viewLo ne :=
    searchRun_small (by omega)
  obtain ⟨w, hw2, _⟩ :=
    match_score_some_of_right (t := ⟨t.lines, t.viewLo, ne⟩) hne
  have hgood2 : GoodAcc (startScore t other ne) t.viewLo ne
      (searchRun (startScore t other ne) t.viewLo ne) := by
    rw [heq2]
    exact searchBase_good hg1 hw2
  obtain ⟨hh1, hh2, hh3⟩ := hgood2
  have hscle : fLe (searchRun (endScore t other) t.viewLo t.viewHi).2
      (searchRun (startScore t other ne) t.viewLo ne).2 := by
    rw [heq2]
    refine searchBase_max hdp2 le_rfl hg1 ?_
    exact hg3
  have hmidpos : 0 < (searchRun (endScore t other) t.viewLo t.viewHi).2.den :=
    hdp _ _ hg3
  refine ⟨⟨t.lines, (searchRun (startScore t other ne) t.viewLo ne).1, ne⟩,
    (searchRun (startScore t other ne) t.viewLo ne).2, q, ?_, hq,
    fLe_trans hmidpos hqle hscle⟩
  simp only [TextData.optimize_bounds]
  rw [← hne_def]
  rw [with_view_eq hg1 (le_trans hg2 hlen)]
  simp only
  rw [with_view_eq (t := ⟨t.lines, t.viewLo, ne⟩) hh2 (le_trans hg2 hlen)]

/-! ## Lemmas about UTF-8 validity and `trim_byte_adjusted` -/

theorem seqLen_not_cont (b : Nat) (h : isCont b = true) : seqLen b = none := by
  unfold isCont at h
  rw [decide_eq_true_iff] at h
  unfold seqLen
  rw [if_neg (by omega), if_pos (by omega)]

theorem lead_not_cont (b n : Nat) (h : seqLen b = some n) : isCont b = false := by
  by_contra hc
  rw [Bool.not_eq_false] at hc
  rw [seqLen_not_cont b hc] at h
  exact Option.noConfusion h

/-- The first byte of a well-formed UTF-8 sequence is never a
continuation byte. -/
theorem validUtf8_head_not_cont (s : List Nat) (hv : ValidUtf8 s) :
    s = [] ∨ isCont (s.getD 0 0) = false := by
  cases hv with
  | nil => exact Or.inl rfl
  | cons b cont rest hseq hcont hrest =>
      exact Or.inr (by rw [List.getD_cons_zero]; exact lead_not_cont b _ hseq)

/-- Truncating a well-formed UTF-8 sequence at its end or just before a
non-continuation byte yields a well-formed sequence. -/
theorem validUtf8_take (s : List Nat) (hv : ValidUtf8 s) :
    ∀ k, k ≤ s.length → (k = s.length ∨ isCont (s.getD k 0) = false) →
    ValidUtf8 (s.take k) := by
  induction hv with
  | nil =>
      intro k hk _
      have hk0 : k = 0 := by simpa using hk
      subst hk0
      exact ValidUtf8.nil
  | cons b cont rest hseq hcont hrest ih =>
      intro k hk hb
      have hlen : (b :: (cont ++ rest)).length = cont.length + rest.length + 1 := by
        simp
      cases k with
      | zero => exact ValidUtf8.nil
      | succ k' =>
          by_cases hcase : cont.length ≤ k'
          · have htake : (b :: (cont ++ rest)).take (k' + 1)
                = b :: (cont ++ rest.take (k' - cont.length)) := by
              rw [List.take_succ_cons, List.take_append_eq_append_take,
                List.take_of_length_le hcase]
            rw [htake]
            refine ValidUtf8.cons b cont _ hseq hcont
              (ih (k' - cont.length) (by rw [hlen] at hk; omega) ?_)
            rcases hb with hb | hb
            · rw [hlen] at hb
              left; omega
            · by_cases hend : k' - cont.length = rest.length
              · exact Or.inl hend
              · right
                have heq : (b :: (cont ++ rest)).getD (k' + 1) 0
                    = rest.getD (k' - cont.length) 0 := by
                  rw [List.getD_cons_succ, List.getD_append_right cont rest 0 k' hcase]
                rw [heq] at hb
                exact hb
          · exfalso
            push_neg at hcase
            rcases hb with hb | hb
            · rw [hlen] at hb
              omega
            · have heq : (b :: (cont ++ rest)).getD (k' + 1) 0 = cont.getD k' 0 := by
                rw [List.getD_cons_succ, List.getD_append cont rest 0 k' hcase]
              rw [heq] at hb
              have hmem : cont.getD k' 0 ∈ cont := by
                rw [List.getD_eq_getElem?_getD, List.getElem?_eq_getElem hcase]
                exact List.getElem_mem hcase
              rw [hcont _ hmem] at hb
              exact Bool.noConfusion hb

/-- The element right after `takeWhile p` stops, if any, fails `p`. -/
theorem takeWhile_stop (p : Nat → Bool) (l : List Nat)
    (h : (l.takeWhile p).length < l.length) :
    p (l.getD (l.takeWhile p).length 0) = false := by
  induction l with
  | nil => simp at h
  | cons x xs ih =>
      by_cases hx : p x = true
      · have hlt : (xs.takeWhile p).length < xs.length := by
          rw [List.takeWhile_cons_of_pos hx] at h
          simp only [List.length_cons] at h
          omega
        rw [List.takeWhile_cons_of_pos hx]
        simp only [List.length_cons, List.getD_cons_succ]
        exact ih hlt
      · rw [List.takeWhile_cons_of_neg hx]
        simp only [List.length_nil, List.getD_cons_zero]
        exact Bool.not_eq_true _ |>.mp hx

theorem takeWhile_full (p : Nat → Bool) (l : List Nat)
    (h : (l.takeWhile p).length = l.length) : l.takeWhile p = l :=
  (List.takeWhile_sublist p).eq_of_length h

theorem getD_reverse (l : List Nat) (i : Nat) (h : i < l.length) :
    l.reverse.getD i 0 = l.getD (l.length - 1 - i) 0 := by
  rw [List.getD_eq_getElem?_getD, List.getD_eq_getElem?_getD,
    List.getElem?_eq_getElem (by simpa using h),
    List.getElem?_eq_getElem (by omega)]
  simp only [Option.getD_some]
  exact List.getElem_reverse ..

theorem getD_take (l : List Nat) (m k : Nat) (h : k < m) :
    (l.take m).getD k 0 = l.getD k 0 := by
  rw [List.getD_eq_getElem?_getD, List.getD_eq_getElem?_getD,
    List.getElem?_take, if_pos h]

/-! ## Lemmas about the two analyzers and the sort contract -/

theorem revSortDesc_spec : SortSpec revSortDesc := by
  intro l hne hsome
  constructor
  · exact (insSortDesc_perm l.reverse).trans (List.reverse_perm l)
  · exact insSortDesc_chain' l.reverse (fun p hp => hsome p (List.mem_reverse.mp hp))

theorem sGe_refl_of_some {a : Option Frac} (h : a ≠ none) : sGe a a = true := by
  cases a with
  | none => exact absurd rfl h
  | some x => simp [sGe, fLe]

theorem scoreEqB_refl (a : Option Frac) : scoreEqB a a = true := by
  cases a <;> simp [scoreEqB, fEq]

theorem sGe_trans {a b c : Option Frac}
    (hbden : ∀ f, b = some f → 0 < f.den)
    (h1 : sGe a b = true) (h2 : sGe b c = true) : sGe a c = true := by
  cases a with
  | none => simp [sGe] at h1
  | some x =>
    cases b with
    | none => simp [sGe] at h1
    | some y =>
      cases c with
      | none => simp [sGe] at h2
      | some z =>
        simp only [sGe, decide_eq_true_eq] at h1 h2 ⊢
        exact fLe_trans (hbden y rfl) h2 h1

theorem sGe_antisymm_scoreEq {a b : Option Frac}
    (h1 : sGe a b = true) (h2 : sGe b a = true) : scoreEqB a b = true := by
  cases a <;> cases b <;> simp_all [sGe, scoreEqB, fLe, fEq]
  omega

/-- The head of a descending score chain dominates every element. -/
theorem chain_sGe_head (hd : PartialMatch) (tl : List PartialMatch)
    (hch : (hd :: tl).Chain' (fun a b => sGe a.score b.score))
    (hden : ∀ p ∈ hd :: tl, ∀ f, p.score = some f → 0 < f.den)
    (hno : ∀ p ∈ hd :: tl, p.score ≠ none) :
    ∀ e ∈ hd :: tl, sGe hd.score e.score = true := by
  induction tl generalizing hd with
  | nil =>
      intro e he
      rw [List.mem_singleton] at he
      subst he
      exact sGe_refl_of_some (hno e (by simp))
  | cons q tl' ih =>
      intro e he
      obtain ⟨hhd, hch'⟩ := List.chain'_cons.mp hch
      rcases List.mem_cons.mp he with he | he
      · subst he
        exact sGe_refl_of_some (hno e (by simp))
      · have hq := ih q hch'
          (fun p hp f => hden p (List.mem_cons_of_mem hd hp) f)
          (fun p hp => hno p (List.mem_cons_of_mem hd hp)) e he
        exact sGe_trans (fun f hf => hden q (by simp) f hf) hhd hq

/-- The head of any `SortSpec`-sorted list is a maximum of the input. -/
theorem sortSpec_head_max (f : List PartialMatch → List PartialMatch)
    (hs : SortSpec f) (l : List PartialMatch) (hne : l ≠ [])
    (hno : ∀ p ∈ l, p.score ≠ none)
    (hden : ∀ p ∈ l, ∀ fr, p.score = some fr → 0 < fr.den)
    (hd : PartialMatch) (tl : List PartialMatch) (hsf : f l = hd :: tl) :
    hd ∈ l ∧ ∀ e ∈ l, sGe hd.score e.score = true := by
  obtain ⟨hperm, hchain⟩ := hs l hne hno
  rw [hsf] at hperm hchain
  have hmem : ∀ p ∈ hd :: tl, p ∈ l := fun p hp => hperm.mem_iff.mp hp
  refine ⟨hmem hd (by simp), ?_⟩
  intro e he
  exact chain_sGe_head hd tl hchain (fun p hp => hden p (hmem p hp))
    (fun p hp => hno p (hmem p hp)) e (hperm.mem_iff.mpr he)

/-- Every candidate score is a `match_score`, so its denominator is
positive whenever it is an ordinary number. -/
theorem candidatesOf_den_pos (store : Store) (text : TextData) :
    ∀ p ∈ candidatesOf store text, ∀ f, p.score = some f → 0 < f.den := by
  intro p hp f hf
  unfold candidatesOf at hp
  rw [List.mem_flatMap] at hp
  obtain ⟨entry, _, hpe⟩ := hp
  unfold entryCandidates at hpe
  have hts : ∃ td : TextData, p.score = td.match_score text := by
    rcases List.mem_cons.mp hpe with h | h
    · exact ⟨entry.2.original, by rw [h]⟩
    · rcases List.mem_append.mp h with h | h
      · obtain ⟨alt, _, ha⟩ := List.mem_map.mp h
        exact ⟨alt, by rw [← ha]⟩
      · obtain ⟨hdr, _, ha⟩ := List.mem_map.mp h
        exact ⟨hdr, by rw [← ha]⟩
  obtain ⟨td, hts⟩ := hts
  rw [hts] at hf
  unfold TextData.match_score at hf
  exact dice_den_pos hf

theorem flatMap_chunks_eq {α β : Type} (f : α → List β) (chunks : List (List α)) :
    chunks.flatMap (fun ch => ch.flatMap f) = chunks.flatten.flatMap f := by
  induction chunks with
  | nil => rfl
  | cons c cs ih =>
      simp only [List.flatMap_cons, List.flatten_cons, List.flatMap_append, ih]

/-- The parallel analyzer on any chunking equals the single-threaded
analyzer on the concatenated license list, sort function for sort
function. -/
theorem analyze_parallel_eq_st (sf : List PartialMatch → List PartialMatch)
    (chunks : List (List (String × LicenseEntry))) (text : TextData) :
    analyze_parallel sf chunks text = analyze_st sf ⟨chunks.flatten⟩ text := by
  unfold analyze_parallel analyze_st candidatesOf
  rw [flatMap_chunks_eq]

theorem analyze_st_nil (sf : List PartialMatch → List PartialMatch)
    (store : Store) (text : TextData) (hc : candidatesOf store text = []) :
    analyze_st sf store text = none := by
  unfold analyze_st
  rw [hc]

theorem analyze_st_single (sf : List PartialMatch → List PartialMatch)
    (store : Store) (text : TextData) (m : PartialMatch)
    (hc : candidatesOf store text = [m]) :
    analyze_st sf store text = some (toMatch m) := by
  unfold analyze_st
  rw [hc]

theorem analyze_st_cons2 (sf : List PartialMatch → List PartialMatch)
    (store : Store) (text : TextData) (m1 m2 : PartialMatch)
    (rest : List PartialMatch)
    (hc : candidatesOf store text = m1 :: m2 :: rest) :
    analyze_st sf store text
      = if (m1 :: m2 :: rest).any (fun p => decide (p.score = none)) then none
        else match sf (m1 :: m2 :: rest) with
          | [] => none
          | m :: _ => some (toMatch m) := by
  unfold analyze_st
  rw [hc]

/-- Two runs of the single-threaded analyzer with different compliant
sort functions panic together, agree on the winning score value, and —
whenever the maximal candidate is unique in name and type — agree on
the returned license. -/
theorem analyze_st_agree (sf1 sf2 : List PartialMatch → List PartialMatch)
    (hs1 : SortSpec sf1) (hs2 : SortSpec sf2) (store : Store) (text : TextData) :
    (analyze_st sf1 store text = none ↔ analyze_st sf2 store text = none) ∧
    ∀ m1 m2, analyze_st sf1 store text = some m1 →
      analyze_st sf2 store text = some m2 →
      scoreEqB m1.score m2.score = true ∧
      (TopUnique (candidatesOf store text) →
        m1.name = m2.name ∧ m1.licenseType = m2.licenseType) := by
  cases hc : candidatesOf store text with
  | nil =>
      rw [analyze_st_nil sf1 store text hc, analyze_st_nil sf2 store text hc]
      exact ⟨Iff.rfl, fun m1 m2 h1 _ => Option.noConfusion h1⟩
  | cons p tail =>
      cases tail with
      | nil =>
          rw [analyze_st_single sf1 store text p hc, analyze_st_single sf2 store text p hc]
          refine ⟨Iff.rfl, fun m1 m2 h1 h2 => ?_⟩
          injection h1 with h1
          injection h2 with h2
          subst h1
          subst h2
          exact ⟨scoreEqB_refl _, fun _ => ⟨rfl, rfl⟩⟩
      | cons q rest =>
          rw [analyze_st_cons2 sf1 store text p q rest hc,
            analyze_st_cons2 sf2 store text p q rest hc]
          by_cases hnan : (p :: q :: rest).any (fun r => decide (r.score = none)) = true
          · rw [if_pos hnan, if_pos hnan]
            exact ⟨Iff.rfl, fun m1 m2 h1 _ => Option.noConfusion h1⟩
          · rw [if_neg hnan, if_neg hnan]
            have hno : ∀ r ∈ p :: q :: rest, r.score ≠ none := by
              rw [Bool.not_eq_true, List.any_eq_false] at hnan
              intro r hr
              simpa using hnan r hr
            have hden : ∀ r ∈ p :: q :: rest, ∀ f, r.score = some f → 0 < f.den := by
              rw [← hc]
              exact candidatesOf_den_pos store text
            cases hsf1 : sf1 (p :: q :: rest) with
            | nil =>
                exfalso
                have hperm := (hs1 (p :: q :: rest) (by simp) hno).1
                rw [hsf1] at hperm
                exact absurd hperm.length_eq (by simp)
            | cons hd1 tl1 =>
                cases hsf2 : sf2 (p :: q :: rest) with
                | nil =>
                    exfalso
                    have hperm := (hs2 (p :: q :: rest) (by simp) hno).1
                    rw [hsf2] at hperm
                    exact absurd hperm.length_eq (by simp)
                | cons hd2 tl2 =>
                    refine ⟨⟨fun h => Option.noConfusion h, fun h => Option.noConfusion h⟩,
                      fun m1 m2 h1 h2 => ?_⟩
                    injection h1 with h1
                    injection h2 with h2
                    subst h1
                    subst h2
                    obtain ⟨hmem1, hmax1⟩ := sortSpec_head_max sf1 hs1 _ (by simp)
                      hno hden hd1 tl1 hsf1
                    obtain ⟨hmem2, hmax2⟩ := sortSpec_head_max sf2 hs2 _ (by simp)
                      hno hden hd2 tl2 hsf2
                    refine ⟨sGe_antisymm_scoreEq (hmax1 hd2 hmem2) (hmax2 hd1 hmem1),
                      fun htop => ?_⟩
                    exact htop hd1 hd2 hmem1 hmem2 hmax1 hmax2

/-! ## Lemmas about the TopDown scan loop -/

/-- Every result the scan loop produces carries score `0` and license
`none`, whatever is accumulated in `containing`. -/
theorem scanTopdownGo_top (sortFn : List PartialMatch → List PartialMatch)
    (cfg : ScanCfg) (store : Store) (text : TextData) :
    ∀ fuel k acc r, scanTopdownGo sortFn cfg store text fuel k acc = some r →
      r.score = fZero ∧ r.license = none := by
  intro fuel
  induction fuel with
  | zero => intro k acc r h; exact Option.noConfusion h
  | succ f ih =>
      intro k acc r h
      rw [scanTopdownGo] at h
      by_cases hk : k < text.viewHi
      · rw [if_pos hk] at h
        cases htd : topdown_find_contained_license sortFn cfg store text k with
        | none => rw [htd] at h; exact Option.noConfusion h
        | some o =>
            cases o with
            | none =>
                rw [htd] at h
                injection h with h
                subst h
                exact ⟨rfl, rfl⟩
            | some c => rw [htd] at h; exact ih _ _ _ h
      · rw [if_neg hk] at h
        injection h with h
        subst h
        exact ⟨rfl, rfl⟩

end Askalono

namespace Askalono

/-! ## Claim C8 — normalization preserves line count -/

theorem splitOnCharL_length (c : Char) (l : Str) :
    (splitOnCharL c l).length = l.count c + 1 := by
  induction l with
  | nil => rfl
  | cons ch rest ih =>
    have hstep : splitOnCharL c (ch :: rest) =
        if ch = c then [] :: splitOnCharL c rest
        else (ch :: (splitOnCharL c rest).headD []) ::
          (splitOnCharL c rest).tail := rfl
    rw [hstep]
    by_cases hc : ch = c
    · have hcount : (ch :: rest).count c = rest.count c + 1 := by
        simp [List.count_cons, hc]
      rw [if_pos hc, hcount]
      simp only [List.length_cons]
      omega
    · have hcount : (ch :: rest).count c = rest.count c := by
        simp [List.count_cons, hc]
      rw [if_neg hc, hcount]
      simp only [List.length_cons, List.length_tail]
      omega

/-- C8: for every per-line normalization pipeline and every input
string, `apply_normalizers` returns exactly one output line per
`\n`-separated line of the input — the normalization pass preserves the
line count (which is the number of `\n` characters plus one). -/
theorem C8_apply_normalizers_preserves_line_count :
    ∀ (passes : List (Str → Str)) (text : Str),
      (apply_normalizers passes text).length =
        (splitOnCharL '\n' text).length ∧
      (splitOnCharL '\n' text).length = text.count '\n' + 1 := by
  intro passes text
  exact ⟨List.length_map _ _, splitOnCharL_length '\n' text⟩

/-! ## Claim C5 — `dice` on empty sets -/

/-- C5 counterexample: two empty bigram sets of equal arity.  The claim
says `dice` returns exactly `0` whenever either set is empty; the code
divides `0.0` by the summed sizes, which for two empty sets is the IEEE
division `0.0 / 0.0` — NaN (`none`), not `0`. -/
theorem C5_counterexample_both_empty_nan :
    NgramSet.dice ⟨[], 2⟩ ⟨[], 2⟩ = none ∧
      (⟨[], 2⟩ : NgramSet).size = 0 ∧ (⟨[], 2⟩ : NgramSet).n = 2 := by
  decide

/-- C5 (amended): for equal arities, `dice` returns exactly `0` when
exactly one of the two sets is empty; when both are empty the division
is `0.0 / 0.0` and the result is NaN, not `0`. -/
theorem C5_dice_empty_amended :
    ∀ A B : NgramSet, A.n = B.n →
      ((A.size = 0 ∧ B.size ≠ 0) → A.dice B = some ⟨0, B.size⟩) ∧
      ((A.size ≠ 0 ∧ B.size = 0) → A.dice B = some ⟨0, A.size⟩) ∧
      ((A.size = 0 ∧ B.size = 0) → A.dice B = none) := by
  intro A B hn
  refine ⟨?_, ?_, ?_⟩
  · rintro ⟨h1, h2⟩
    have := dice_one_empty_left hn h1 h2
    simpa [h1] using this
  · rintro ⟨h1, h2⟩
    have := dice_one_empty_right hn h1 h2
    simpa [h2] using this
  · rintro ⟨h1, h2⟩
    exact dice_none_iff.mpr ⟨hn, h1, h2⟩

/-- Witness for C5: a nonempty set against an empty one scores `0/1`. -/
theorem C5_dice_empty_witness :
    NgramSet.dice ⟨[str "aa bb"], 2⟩ ⟨[], 2⟩ = some ⟨0, 1⟩ :=
  (C5_dice_empty_amended ⟨[str "aa bb"], 2⟩ ⟨[], 2⟩ rfl).2.1
    ⟨by decide, by decide⟩

/-! ## Claim C4 — optimization can worsen the score -/

/-- C4 counterexample: on six one-word lines against a text whose
bigrams are spread over the whole view, the ternary end search compares
the scores at lines 2 and 4 (`2/5 > 2/7`), discards the right half —
including the full view, whose score `6/9` is the best — and returns
view `(0, 2)` with score `2/5 < 6/9 = match_score`: optimization
worsened the score. -/
theorem C4_counterexample_score_worsens :
    worseText.optimize_bounds worseOther =
        some (⟨worseText.lines, 0, 2⟩, ⟨2, 5⟩) ∧
      worseText.match_score worseOther = some ⟨6, 9⟩ ∧
      fLt ⟨2, 5⟩ ⟨6, 9⟩ := by
  decide

/-- C4 (amended): when the caller's view spans at most three lines —
the regime in which `search` is exhaustive rather than ternary — and
the compared text has nonempty match data, the optimized score is at
least `t.match_score(other)`.  On wider views the ternary search may
discard the optimum and return a strictly worse score
(`C4_counterexample_score_worsens`). -/
theorem C4_optimize_bounds_small_view_amended :
    ∀ t other : TextData, t.viewLo ≤ t.viewHi → t.viewHi ≤ t.lines.length →
      t.viewHi - t.viewLo ≤ 3 → other.match_data.size ≠ 0 →
      ∃ t' sc q, t.optimize_bounds other = some (t', sc) ∧
        t.match_score other = some q ∧ fLe q sc :=
  fun _ _ h1 h2 h3 h4 => optimize_bounds_small_ge h1 h2 h3 h4

/-- Witness for C4 (amended) on a one-line view. -/
theorem C4_small_view_witness :
    ∃ t' sc q,
      (TextData.ofLines [str "aa bb"]).optimize_bounds
          (TextData.ofLines [str "aa bb"]) = some (t', sc) ∧
        (TextData.ofLines [str "aa bb"]).match_score
          (TextData.ofLines [str "aa bb"]) = some q ∧ fLe q sc :=
  C4_optimize_bounds_small_view_amended _ _ (by decide) (by decide)
    (by decide) (by decide)

/-! ## Claim C3 — the optimizer can return a view outside the caller's
view -/

/-- C3: with the view `(5, 10)` over lines that are blank except for
line 5, optimized against a `TextData` with empty match data, every
start-bound score in the searched tail is NaN (`0.0 / 0.0`), the fold
over `(0usize, 0f32)` never updates, and `search` returns index `0`;
`with_view(0, 10)` is a valid slice, so `optimize_bounds` silently
returns the view `(0, 10)` — outside the caller's view `(5, 10)`,
contradicting its own documentation ("an optimized result won't go
outside the original view") and the `optimize_doesnt_grow_view` test's
stated intent.  (When the same escape happens in the end-bound search
with `view.0 > 0`, `with_view(view.0, 0)` panics instead.) -/
theorem C3_optimize_bounds_escapes_view :
    escText.optimize_bounds emptyText = some (⟨escLines, 0, 10⟩, fZero) ∧
      escText.lines_view = (5, 10) := by
  decide

/-! ## Claim C6 — the cache version tag -/

/-- C6: the version tag is exactly eleven bytes (`askalono-04` in
ASCII); whenever the first eleven bytes of the input differ from it,
`from_cache` fails with `CacheVersion` — for every possible
decompressor/deserializer, i.e. before decompression is attempted —
and every `to_cache` stream begins with the tag. -/
theorem C6_cache_version_tag :
    CACHE_VERSION.length = 11 ∧
    (∀ (decodeStore : List Nat → Option Store) (input : List Nat),
      11 ≤ input.length → input.take 11 ≠ CACHE_VERSION →
      from_cache decodeStore input = Except.error CacheError.cacheVersion) ∧
    (∀ (encodeStore : Store → List Nat) (s : Store),
      (to_cache encodeStore s).take 11 = CACHE_VERSION) := by
  refine ⟨rfl, ?_, ?_⟩
  · intro dec input h1 h2
    unfold from_cache
    rw [if_neg (by omega), if_pos h2]
  · intro enc s
    unfold to_cache
    rw [List.take_append_eq_append_take]
    have h : (CACHE_VERSION : List Nat).length = 11 := rfl
    rw [List.take_of_length_le h.le, h]
    simp

/-- Witness for C6: a wrong 11-byte header is rejected with
`CacheVersion` no matter the decoder, and a concrete encoded stream
starts with the tag. -/
theorem C6_cache_witness :
    from_cache (fun _ => none) (List.replicate 11 0) =
        Except.error CacheError.cacheVersion ∧
      (to_cache (fun _ => [7, 7, 7]) emptyStore).take 11 = CACHE_VERSION :=
  ⟨C6_cache_version_tag.2.1 _ _ (by decide) (by decide),
    C6_cache_version_tag.2.2 _ _⟩

/-! ## Claim C9 — `trim_byte_adjusted` is UTF-8 safe -/

/-- Claim C9: on a valid UTF-8 byte string, `trim_byte_adjusted` never
panics (neither subtraction underflow nor an off-boundary slice), and
its result is a prefix of the input of byte length at most `idx` that
is itself well-formed UTF-8 — the cut lands on a character boundary —
and is the whole string whenever `idx` is at or past the end. -/
theorem C9_trim_byte_adjusted_safe (s : List Nat) (idx : Nat) (hv : ValidUtf8 s) :
    ∃ r, trim_byte_adjusted s idx = some r ∧
      (∃ rest, s = r ++ rest) ∧ r.length ≤ idx ∧ ValidUtf8 r ∧
      (s.length ≤ idx → r = s) := by
  by_cases h1 : s.length ≤ idx
  · refine ⟨s, ?_, ⟨[], (List.append_nil s).symm⟩, h1, hv, fun _ => rfl⟩
    unfold trim_byte_adjusted
    rw [if_pos h1]
  · push_neg at h1
    by_cases h2 : idx = 0 ∨ isCont (s.getD idx 0) = false
    · refine ⟨s.take idx, ?_, ⟨s.drop idx, (List.take_append_drop idx s).symm⟩,
        by rw [List.length_take]; omega, ?_, fun hc => absurd hc (by omega)⟩
      · unfold trim_byte_adjusted
        rw [if_neg (by omega), if_pos h2]
      · rcases h2 with h2 | h2
        · subst h2; exact ValidUtf8.nil
        · exact validUtf8_take s hv idx (le_of_lt h1) (Or.inr h2)
    · push_neg at h2
      obtain ⟨h0, hc⟩ := h2
      rw [ne_eq, Bool.not_eq_false] at hc
      set pre := s.take idx with hpre
      have hprelen : pre.length = idx := by
        rw [hpre, List.length_take]; omega
      set trailing := (pre.reverse.takeWhile (fun b => isCont b)).length with htr
      have htrle : trailing ≤ idx := by
        rw [htr]
        calc (pre.reverse.takeWhile (fun b => isCont b)).length
            ≤ pre.reverse.length := (List.takeWhile_sublist _).length_le
          _ = idx := by rw [List.length_reverse, hprelen]
      have hA : trailing < idx := by
        rcases lt_or_eq_of_le htrle with h | h
        · exact h
        · exfalso
          have hfull : pre.reverse.takeWhile (fun b => isCont b) = pre.reverse := by
            refine takeWhile_full _ _ ?_
            rw [← htr, h, List.length_reverse, hprelen]
          have hhead : isCont (s.getD 0 0) = false := by
            rcases validUtf8_head_not_cont s hv with he | he
            · rw [he] at h1; simp at h1
            · exact he
          have hheadpre : pre.getD 0 0 = s.getD 0 0 := getD_take s idx 0 (by omega)
          have hmem : pre.getD 0 0 ∈ pre := by
            have hp0 : 0 < pre.length := by omega
            rw [List.getD_eq_getElem?_getD, List.getElem?_eq_getElem hp0]
            exact List.getElem_mem hp0
          have hmemrev : pre.getD 0 0 ∈ pre.reverse.takeWhile (fun b => isCont b) := by
            rw [hfull, List.mem_reverse]
            exact hmem
          have := List.mem_takeWhile_imp hmemrev
          rw [hheadpre, hhead] at this
          exact Bool.noConfusion this
      have hstop : isCont (pre.reverse.getD trailing 0) = false := by
        have := takeWhile_stop (fun b => isCont b) pre.reverse
          (by rw [← htr, List.length_reverse, hprelen]; omega)
        rw [← htr] at this
        exact this
      have hrevk : pre.reverse.getD trailing 0 = pre.getD (idx - 1 - trailing) 0 := by
        have := getD_reverse pre trailing (by rw [hprelen]; omega)
        rw [hprelen] at this
        exact this
      have hidxk : idx - 1 - trailing = idx - trailing - 1 := by omega
      have hbk : isCont (s.getD (idx - trailing - 1) 0) = false := by
        rw [hrevk, hidxk, getD_take s idx _ (by omega)] at hstop
        exact hstop
      refine ⟨s.take (idx - trailing - 1), ?_,
        ⟨s.drop (idx - trailing - 1), (List.take_append_drop _ s).symm⟩,
        by rw [List.length_take]; omega,
        validUtf8_take s hv _ (by omega) (Or.inr hbk),
        fun hcon => absurd hcon (by omega)⟩
      unfold trim_byte_adjusted
      rw [if_neg (by omega),
        if_neg (by push_neg; exact ⟨h0, by rw [hc]; exact fun h => Bool.noConfusion h⟩)]
      simp only [← hpre, ← htr]
      rw [if_pos (by omega), if_pos (Or.inr hbk)]

/-- Witness for C9 at `s = "é!"` (bytes `[195, 169, 33]`) and the
mid-character index `idx = 1`. -/
theorem C9_trim_witness :
    ∃ r, trim_byte_adjusted [195, 169, 33] 1 = some r ∧
      (∃ rest, [195, 169, 33] = r ++ rest) ∧ r.length ≤ 1 ∧ ValidUtf8 r ∧
      (([195, 169, 33] : List Nat).length ≤ 1 → r = [195, 169, 33]) :=
  C9_trim_byte_adjusted_safe [195, 169, 33] 1
    (ValidUtf8.cons 195 [169] [33] (by decide) (by decide)
      (ValidUtf8.cons 33 [] [] (by decide) (by decide) ValidUtf8.nil))

/-! ## Claim C10 — TopDown results carry no top-level match -/

/-- Claim C10: whatever `scan_topdown` returns has top-level score `0`
and top-level license `none`; only `containing` carries match
information. -/
theorem C10_topdown_result_score_zero (sortFn : List PartialMatch → List PartialMatch)
    (cfg : ScanCfg) (store : Store) (text : TextData) (r : ScanResultR)
    (h : scan_topdown sortFn cfg store text = some r) :
    r.score = fZero ∧ r.license = none :=
  scanTopdownGo_top sortFn cfg store text (text.viewHi + 1) 0 [] r h

/-- Witness for C10: a one-license store scanned over its own text
produces a non-trivial `containing` entry, yet top-level score `0` and
license `none`. -/
theorem C10_scan_witness :
    scan_topdown insSortDesc ⟨⟨1, 2⟩, 1⟩ oneStore (TextData.ofLines [str "aa bb"])
        = some ⟨fZero, none, [⟨⟨2, 2⟩, "L", LicenseType.Original, 0, 1⟩]⟩ ∧
      (⟨fZero, none, [⟨⟨2, 2⟩, "L", LicenseType.Original, 0, 1⟩]⟩ : ScanResultR).score
          = fZero ∧
      (⟨fZero, none, [⟨⟨2, 2⟩, "L", LicenseType.Original, 0, 1⟩]⟩ : ScanResultR).license
          = none :=
  ⟨by decide,
    C10_topdown_result_score_zero insSortDesc ⟨⟨1, 2⟩, 1⟩ oneStore
      (TextData.ofLines [str "aa bb"]) _ (by decide)⟩

/-! ## Claim C1 — what `analyze` does on empty stores and bad input -/

/-- Counterexample to C1.  There is no `NoMatch` error in the analyzer:
on an empty store both analyzers panic at `&res[0]` (modeled `none`),
for every sort function.  And a non-empty store is not enough to rule
out failure: a store of two entries whose texts are empty analyzed
against the empty string produces two NaN scores, so the
`partial_cmp(..).unwrap()` inside the sort panics — again for every
sort function, since the failure happens before sorting. -/
theorem C1_counterexample_analyze_panics :
    (∀ sf, analyze_st sf emptyStore emptyText = none) ∧
    twoEmptyStore.licenses ≠ [] ∧
    (∀ sf, analyze_st sf twoEmptyStore emptyText = none) :=
  ⟨fun _ => rfl, by decide, fun _ => rfl⟩

/-- Amended C1: for every sort function satisfying the unstable-sort
contract, an empty store makes `analyze` panic (`none`, not an error
value), and a non-empty store yields a match provided no candidate
score is NaN. -/
theorem C1_analyze_amended (sortFn : List PartialMatch → List PartialMatch)
    (hs : SortSpec sortFn) (store : Store) (text : TextData) :
    (store.licenses = [] → analyze_st sortFn store text = none) ∧
    (store.licenses ≠ [] →
      (∀ p ∈ candidatesOf store text, p.score ≠ none) →
      ∃ m, analyze_st sortFn store text = some m) := by
  constructor
  · intro he
    have hc : candidatesOf store text = [] := by
      unfold candidatesOf
      rw [he]
      rfl
    unfold analyze_st
    rw [hc]
  · intro hne hno
    cases hc : candidatesOf store text with
    | nil => exact absurd hc (candidatesOf_ne_nil store text hne)
    | cons m1 tail =>
        cases tail with
        | nil =>
            refine ⟨toMatch m1, ?_⟩
            unfold analyze_st
            rw [hc]
        | cons m2 rest =>
            rw [hc] at hno
            have hany : (m1 :: m2 :: rest).any (fun p => decide (p.score = none))
                = false := by
              rw [List.any_eq_false]
              intro p hp
              simpa using hno p hp
            have heq : analyze_st sortFn store text
                = if (m1 :: m2 :: rest).any (fun p => decide (p.score = none)) then none
                  else match sortFn (m1 :: m2 :: rest) with
                    | [] => none
                    | m :: _ => some (toMatch m) := by
              unfold analyze_st
              rw [hc]
            have hperm := (hs (m1 :: m2 :: rest) (by simp)
              (fun p hp => hno p hp)).1
            cases hsf : sortFn (m1 :: m2 :: rest) with
            | nil =>
                exfalso
                rw [hsf] at hperm
                exact absurd hperm.length_eq (by simp)
            | cons mm tl =>
                refine ⟨toMatch mm, ?_⟩
                rw [heq, hany, hsf]
                simp

/-- Witness for the amended C1 at the stable insertion sort: the empty
store panics, and an ordinary store matched against its own text
returns a match. -/
theorem C1_analyze_witness :
    analyze_st insSortDesc emptyStore emptyText = none ∧
    (∃ m, analyze_st insSortDesc oneStore (TextData.ofLines [str "aa bb"]) = some m) :=
  ⟨(C1_analyze_amended insSortDesc insSortDesc_spec emptyStore emptyText).1 rfl,
   (C1_analyze_amended insSortDesc insSortDesc_spec oneStore
      (TextData.ofLines [str "aa bb"])).2 (by decide) (by decide)⟩

/-! ## Claim C2 — parallel and single-threaded analysis -/

/-- Counterexample to C2: with two licenses whose scores tie, the
result depends on the unstable sort.  The store has entries `A` and `B`
with identical texts; one compliant sort function puts `B` first, the
other `A`, so the two analyzer runs return different license names. -/
theorem C2_counterexample_tie_order : ¬ AnalyzeParallelismIndependent := by
  intro h
  have := h tieStore (TextData.ofLines [str "x y"]) insSortDesc revSortDesc
    [tieStore.licenses] insSortDesc_spec revSortDesc_spec (by decide)
  exact absurd this (by decide)

/-- Amended C2: chunking never matters and the winning score value is
parallelism-independent; the license name and type agree exactly under
the additional hypothesis that the maximal candidate is unique in name
and type (`TopUnique`), which score ties between distinct licenses
violate. -/
theorem C2_analyze_agree_amended (sf1 sf2 : List PartialMatch → List PartialMatch)
    (hs1 : SortSpec sf1) (hs2 : SortSpec sf2) (store : Store) (text : TextData)
    (chunks : List (List (String × LicenseEntry)))
    (hch : chunks.flatten = store.licenses) :
    (analyze_parallel sf1 chunks text = none ↔ analyze_st sf2 store text = none) ∧
    ∀ m1 m2, analyze_parallel sf1 chunks text = some m1 →
      analyze_st sf2 store text = some m2 →
      scoreEqB m1.score m2.score = true ∧
      (TopUnique (candidatesOf store text) →
        m1.name = m2.name ∧ m1.licenseType = m2.licenseType) := by
  have hpar : analyze_parallel sf1 chunks text = analyze_st sf1 store text := by
    rw [analyze_parallel_eq_st, hch]
  rw [hpar]
  exact analyze_st_agree sf1 sf2 hs1 hs2 store text

/-- Witness for the amended C2 on the tie store itself: the two runs
differ in license name, but the theorem's guarantees (panic agreement
and score-value agreement) hold, and the name conclusion is exactly
conditional on `TopUnique`. -/
theorem C2_amended_witness :
    (analyze_parallel insSortDesc [tieStore.licenses] (TextData.ofLines [str "x y"]) = none
      ↔ analyze_st revSortDesc tieStore (TextData.ofLines [str "x y"]) = none) ∧
    ∀ m1 m2,
      analyze_parallel insSortDesc [tieStore.licenses]
          (TextData.ofLines [str "x y"]) = some m1 →
      analyze_st revSortDesc tieStore (TextData.ofLines [str "x y"]) = some m2 →
      scoreEqB m1.score m2.score = true ∧
      (TopUnique (candidatesOf tieStore (TextData.ofLines [str "x y"])) →
        m1.name = m2.name ∧ m1.licenseType = m2.licenseType) :=
  C2_analyze_agree_amended insSortDesc revSortDesc insSortDesc_spec revSortDesc_spec
    tieStore (TextData.ofLines [str "x y"]) [tieStore.licenses] (by decide)

end Askalono

namespace Askalono

theorem rangeStepGo_nil (step : Nat) (fuel start stop : Nat) (h : stop ≤ start) :
    rangeStepGo step fuel start stop = [] := by
  cases fuel with
  | zero => rfl
  | succ f =>
      rw [rangeStepGo]
      rw [if_neg (by omega)]

theorem rangeStepGo_mem (step : Nat) :
    ∀ (fuel start stop x : Nat), x ∈ rangeStepGo step fuel start stop →
      start ≤ x ∧ x < stop := by
  intro fuel
  induction fuel with
  | zero => intro start stop x hx; cases hx
  | succ f ih =>
      intro start stop x hx
      rw [rangeStepGo] at hx
      by_cases hlt : start < stop
      · rw [if_pos hlt] at hx
        rcases List.mem_cons.mp hx with hx | hx
        · subst hx; omega
        · have := ih (start + step) stop x hx
          omega
      · rw [if_neg hlt] at hx
        cases hx

theorem rangeStepGo_getLast (step : Nat) (hstep : 1 ≤ step) :
    ∀ (fuel start stop : Nat), stop ≤ start + fuel → start < stop →
      ∃ lst, (rangeStepGo step fuel start stop).getLast? = some lst ∧
        start ≤ lst ∧ lst < stop ∧ stop ≤ lst + step := by
  intro fuel
  induction fuel with
  | zero => intro start stop hfuel hlt; omega
  | succ f ih =>
      intro start stop hfuel hlt
      rw [rangeStepGo, if_pos hlt]
      by_cases hnext : start + step < stop
      · obtain ⟨lst, hl, h1, h2, h3⟩ := ih (start + step) stop (by omega) hnext
        refine ⟨lst, ?_, by omega, h2, h3⟩
        cases hgo : rangeStepGo step f (start + step) stop with
        | nil => rw [hgo] at hl; exact Option.noConfusion hl
        | cons a l =>
            rw [hgo] at hl
            rw [List.getLast?_cons_cons]
            exact hl
      · rw [rangeStepGo_nil step f (start + step) stop (by omega)]
        exact ⟨start, rfl, le_rfl, hlt, by omega⟩

theorem rangeStepExcl_mem {start stop step x : Nat}
    (hx : x ∈ rangeStepExcl start stop step) : start ≤ x ∧ x < stop :=
  rangeStepGo_mem step _ start stop x hx

theorem rangeStepIncl_mem {start stop step x : Nat}
    (hx : x ∈ rangeStepIncl start stop step) : start ≤ x ∧ x ≤ stop := by
  have := rangeStepGo_mem step _ start (stop + 1) x hx
  omega

theorem rangeStepExcl_getLast {start stop step : Nat} (hstep : 1 ≤ step)
    (hlt : start < stop) :
    ∃ lst, (rangeStepExcl start stop step).getLast? = some lst ∧
      start ≤ lst ∧ lst < stop ∧ stop ≤ lst + step :=
  rangeStepGo_getLast step hstep (stop - start) start stop (by omega) hlt

theorem rangeStepExcl_nil {start stop step : Nat} (h : stop ≤ start) :
    rangeStepExcl start stop step = [] := by
  unfold rangeStepExcl
  exact rangeStepGo_nil step _ start stop h

theorem rangeStepIncl_singleton {st hi step : Nat} (h1 : st ≤ hi)
    (h2 : hi < st + step) : rangeStepIncl st hi step = [st] := by
  unfold rangeStepIncl rangeStepExcl
  cases hf : hi + 1 - st with
  | zero => omega
  | succ f =>
      rw [rangeStepGo, if_pos (by omega)]
      rw [rangeStepGo_nil step f (st + step) (hi + 1) (by omega)]

theorem rangeStepIncl_ne_nil {st hi step : Nat} (h : st ≤ hi) :
    rangeStepIncl st hi step ≠ [] := by
  unfold rangeStepIncl rangeStepExcl
  cases hf : hi + 1 - st with
  | zero => omega
  | succ f =>
      rw [rangeStepGo, if_pos (by omega)]
      exact List.cons_ne_nil _ _

theorem with_view_some_facts {t : TextData} {a b : Nat} {v : TextData}
    (h : t.with_view a b = some v) :
    a ≤ b ∧ b ≤ t.lines.length ∧ v = ⟨t.lines, a, b⟩ := by
  unfold TextData.with_view at h
  split at h
  · rename_i hc
    exact ⟨hc.1, hc.2, (Option.some.injEq _ _ ▸ h).symm⟩
  · exact Option.noConfusion h

theorem optimize_bounds_some_facts {t other : TextData} {t' : TextData} {sc : Frac}
    (h : t.optimize_bounds other = some (t', sc)) :
    t'.lines = t.lines ∧ t.viewLo ≤ t'.viewHi ∧ t'.viewLo ≤ t'.viewHi := by
  unfold TextData.optimize_bounds at h
  simp only at h
  split at h
  · exact Option.noConfusion h
  · rename_i tEnd hv1
    split at h
    · exact Option.noConfusion h
    · rename_i tFin hv2
      obtain ⟨ha1, ha2, ha3⟩ := with_view_some_facts hv1
      obtain ⟨hb1, hb2, hb3⟩ := with_view_some_facts hv2
      injection h with h
      injection h with h1 h2
      subst h1
      rw [hb3, ha3]
      exact ⟨rfl, ha1, hb1⟩

theorem match_data_width0 (lines : List Str) (a : Nat) :
    (TextData.match_data ⟨lines, a, a⟩).size = 0 := by
  unfold TextData.match_data TextData.processed TextData.sliceLines
  simp only [Nat.sub_self, List.take_zero]
  decide

theorem optimize_width0_none {v other : TextData} (hw : v.viewLo = v.viewHi)
    (hpos : 1 ≤ v.viewLo) (hother : other.match_data.size = 0) :
    v.optimize_bounds other = none := by
  have hnan : ∀ x, v.viewLo ≤ x → x ≤ v.viewHi → endScore v other x = none := by
    intro x h1 h2
    have hx : x = v.viewLo := by omega
    subst hx
    unfold endScore TextData.match_score
    rw [dice_none_iff]
    exact ⟨by rw [match_data_n, match_data_n], match_data_width0 v.lines v.viewLo, hother⟩
  have hsearch : searchRun (endScore v other) v.viewLo v.viewHi = (0, fZero) := by
    rw [searchRun_small (by omega), searchBase_allnone hnan]
  unfold TextData.optimize_bounds
  simp only [hsearch]
  have hwv : v.with_view v.viewLo 0 = none := by
    unfold TextData.with_view
    rw [if_neg (by omega)]
  rw [hwv]

end Askalono

namespace Askalono

theorem candidatesOf_data_map (store : Store) (w : TextData) :
    (candidatesOf store w).map (fun p => p.data) = candidateDatas store := by
  unfold candidatesOf candidateDatas
  rw [List.map_flatMap]
  refine List.flatMap_congr ?_
  intro p _
  unfold entryCandidates
  simp [List.map_map, Function.comp_def]

theorem candidatesOf_score_eq (store : Store) (w : TextData) :
    ∀ p ∈ candidatesOf store w, p.score = p.data.match_score w := by
  intro p hp
  unfold candidatesOf at hp
  rw [List.mem_flatMap] at hp
  obtain ⟨entry, _, hpe⟩ := hp
  unfold entryCandidates at hpe
  rcases List.mem_cons.mp hpe with h | h
  · rw [h]
  · rcases List.mem_append.mp h with h | h
    · obtain ⟨alt, _, ha⟩ := List.mem_map.mp h
      rw [← ha]
    · obtain ⟨hdr, _, ha⟩ := List.mem_map.mp h
      rw [← ha]

theorem candidateDatas_mem_of {store : Store} {w : TextData} {p : PartialMatch}
    (hp : p ∈ candidatesOf store w) : p.data ∈ candidateDatas store := by
  rw [← candidatesOf_data_map store w]
  exact List.mem_map_of_mem _ hp

theorem candidatesOf_length (store : Store) (w : TextData) :
    (candidatesOf store w).length = (candidateDatas store).length := by
  rw [← candidatesOf_data_map store w, List.length_map]

theorem candidateDatas_ne_nil {store : Store} (h : store.licenses ≠ []) :
    candidateDatas store ≠ [] := by
  unfold candidateDatas
  cases hls : store.licenses with
  | nil => exact absurd hls h
  | cons p rest => simp

theorem candidateDatas_singleton {store : Store} {d : TextData}
    (h : candidateDatas store = [d]) :
    ∃ nm entry, store.licenses = [(nm, entry)] ∧ entry.original = d ∧
      entry.alternates = [] ∧ entry.headers = [] := by
  cases hls : store.licenses with
  | nil =>
      exfalso
      have : candidateDatas store = [] := by
        unfold candidateDatas
        rw [hls]
        rfl
      rw [h] at this
      exact List.noConfusion this
  | cons p rest =>
      have hcd : candidateDatas store
          = (p.2.original :: (p.2.alternates ++ p.2.headers)) ++
            rest.flatMap (fun q => q.2.original :: (q.2.alternates ++ q.2.headers)) := by
        unfold candidateDatas
        rw [hls, List.flatMap_cons]
      rw [h] at hcd
      have hlen : ([d] : List TextData).length
          = (p.2.original :: (p.2.alternates ++ p.2.headers)).length +
            (rest.flatMap (fun q => q.2.original :: (q.2.alternates ++ q.2.headers))).length := by
        rw [hcd, List.length_append]
      simp only [List.length_cons, List.length_append, List.length_singleton,
        List.length_nil] at hlen
      have halt : p.2.alternates = [] := List.length_eq_zero.mp (by omega)
      have hhdr : p.2.headers = [] := List.length_eq_zero.mp (by omega)
      have hrest : rest = [] := by
        cases hr : rest with
        | nil => rfl
        | cons q qs =>
            exfalso
            rw [hr] at hlen
            simp only [List.flatMap_cons, List.length_append, List.length_cons,
              List.length_nil] at hlen
            omega
      have hd : p.2.original = d := by
        rw [halt, hhdr, hrest] at hcd
        simp only [List.append_nil, List.flatMap_nil] at hcd
        exact (List.cons.injEq _ _ _ _ ▸ hcd).1.symm
      refine ⟨p.1, p.2, ?_, hd, halt, hhdr⟩
      rw [hrest]

/-- Any analyzer output is one of the candidates. -/
theorem analyze_some_src (sf : List PartialMatch → List PartialMatch)
    (hs : SortSpec sf) (store : Store) (v : TextData) (m : MatchR)
    (h : analyze_st sf store v = some m) :
    ∃ p ∈ candidatesOf store v, m = toMatch p := by
  cases hc : candidatesOf store v with
  | nil => rw [analyze_st_nil sf store v hc] at h; exact Option.noConfusion h
  | cons p tail =>
      cases tail with
      | nil =>
          rw [analyze_st_single sf store v p hc] at h
          injection h with h
          exact ⟨p, List.mem_singleton_self p, h.symm⟩
      | cons q rest =>
          rw [analyze_st_cons2 sf store v p q rest hc] at h
          by_cases hnan : (p :: q :: rest).any (fun r => decide (r.score = none)) = true
          · rw [if_pos hnan] at h
            exact Option.noConfusion h
          · rw [if_neg hnan] at h
            have hno : ∀ r ∈ p :: q :: rest, r.score ≠ none := by
              rw [Bool.not_eq_true, List.any_eq_false] at hnan
              intro r hr
              simpa using hnan r hr
            cases hsf : sf (p :: q :: rest) with
            | nil => rw [hsf] at h; exact Option.noConfusion h
            | cons hd tl =>
                rw [hsf] at h
                injection h with h
                have hperm := (hs (p :: q :: rest) (by simp) hno).1
                rw [hsf] at hperm
                refine ⟨hd, ?_, h.symm⟩
                exact hperm.mem_iff.mp (by simp)

/-- With at least two candidates, a NaN score always panics the sort. -/
theorem analyze_none_of_nan_multi (sf : List PartialMatch → List PartialMatch)
    (store : Store) (v : TextData)
    (hlen : 2 ≤ (candidatesOf store v).length)
    (hnan : ∃ p ∈ candidatesOf store v, p.score = none) :
    analyze_st sf store v = none := by
  cases hc : candidatesOf store v with
  | nil => rw [hc] at hlen; simp at hlen
  | cons p tail =>
      cases tail with
      | nil => rw [hc] at hlen; simp at hlen
      | cons q rest =>
          rw [analyze_st_cons2 sf store v p q rest hc]
          rw [if_pos ?_]
          rw [List.any_eq_true]
          obtain ⟨r, hr, hrs⟩ := hnan
          rw [hc] at hr
          exact ⟨r, hr, by simp [hrs]⟩

end Askalono

namespace Askalono

theorem tdEndLoop_foundInv (sf : List PartialMatch → List PartialMatch)
    (cfg : ScanCfg) (store : Store) (text : TextData) (k : Nat) :
    ∀ (ens : List Nat) (st : Nat) (state : TDState), k ≤ st →
      FoundInv sf store text k state.found →
      ∀ state' brk, tdEndLoop sf cfg store text st ens state = some (state', brk) →
        FoundInv sf store text k state'.found := by
  intro ens
  induction ens with
  | nil =>
      intro st state hst hinv state' brk h
      have h' : some (state, false) = some (state', brk) := h
      injection h' with h'
      injection h' with h1 h2
      subst h1
      exact hinv
  | cons en rest ih =>
      intro st state hst hinv state' brk h
      simp only [tdEndLoop] at h
      split at h
      · exact Option.noConfusion h
      · rename_i v hv
        split at h
        · exact Option.noConfusion h
        · rename_i m hm
          split at h
          · split at h
            · have h' := h
              injection h' with h'
              injection h' with h1 h2
              subst h1
              exact hinv
            · refine ih st ⟨_, some (st, en, m)⟩ hst ?_ state' brk h
              intro s0 e0 m' hf
              simp only at hf
              injection hf with hf
              injection hf with hf1 hf2
              injection hf2 with hf2 hf3
              subst hf1
              subst hf2
              subst hf3
              exact ⟨hst, v, hv, hm⟩
          · exact ih st ⟨state.hit || sGe m.score (some cfg.confidence_threshold),
              state.found⟩ hst hinv state' brk h

theorem tdStartLoop_foundInv (sf : List PartialMatch → List PartialMatch)
    (cfg : ScanCfg) (store : Store) (text : TextData) (k : Nat) :
    ∀ (sts : List Nat) (state : TDState), (∀ st ∈ sts, k ≤ st) →
      FoundInv sf store text k state.found →
      ∀ state', tdStartLoop sf cfg store text sts state = some state' →
        FoundInv sf store text k state'.found := by
  intro sts
  induction sts with
  | nil =>
      intro state _ hinv state' h
      have h' : some state = some state' := h
      injection h' with h'
      subst h'
      exact hinv
  | cons st rest ih =>
      intro state hsts hinv state' h
      simp only [tdStartLoop] at h
      split at h
      · exact Option.noConfusion h
      · rename_i state1 brk hend
        have hinv1 := tdEndLoop_foundInv sf cfg store text k _ st state
          (hsts st (by simp)) hinv state1 brk hend
        split at h
        · injection h with h
          subst h
          exact hinv1
        · exact ih state1 (fun x hx => hsts x (by simp [hx])) hinv1 state' h

theorem topdown_some_anatomy (sf : List PartialMatch → List PartialMatch)
    (cfg : ScanCfg) (store : Store) (text : TextData) (k : Nat)
    (c : ContainedResult)
    (h : topdown_find_contained_license sf cfg store text k = some (some c)) :
    ∃ s0 e0 m v opt sc,
      k ≤ s0 ∧ text.with_view s0 e0 = some v ∧ analyze_st sf store v = some m ∧
      TextData.optimize_bounds v m.data = some (opt, sc) ∧
      c = ⟨sc, m.name, m.licenseType, opt.viewLo, opt.viewHi⟩ := by
  unfold topdown_find_contained_license at h
  split at h
  · exact Option.noConfusion h
  · split at h
    · exact Option.noConfusion h
    · rename_i state hloop
      have hinv := tdStartLoop_foundInv sf cfg store text k _ ⟨false, none⟩
        (fun st hst => (rangeStepExcl_mem hst).1)
        (fun s0 e0 m hf => Option.noConfusion hf) state hloop
      split at h
      · injection h with h
        exact Option.noConfusion h
      · rename_i s0 e0 m hf
        obtain ⟨hk, v, hv, hm⟩ := hinv s0 e0 m hf
        split at h
        · exact Option.noConfusion h
        · rename_i v' hv'
          have hvv : v' = v := by
            rw [hv] at hv'
            injection hv' with hv'
            exact hv'.symm
          subst hvv
          split at h
          · exact Option.noConfusion h
          · rename_i opt sc hopt
            split at h
            · injection h with h
              exact Option.noConfusion h
            · injection h with h
              injection h with h
              exact ⟨s0, e0, m, v', opt, sc, hk, hv', hm, hopt, h.symm⟩

theorem topdown_D (sf : List PartialMatch → List PartialMatch)
    (hs : SortSpec sf) (cfg : ScanCfg) (store : Store) (text : TextData)
    (hall : ∀ d ∈ candidateDatas store, d.match_data.size ≠ 0)
    (k : Nat) (c : ContainedResult)
    (h : topdown_find_contained_license sf cfg store text k = some (some c)) :
    k ≤ c.lineLo ∧ c.lineLo ≤ c.lineHi := by
  obtain ⟨s0, e0, m, v, opt, sc, hk, hv, hm, hopt, hc⟩ :=
    topdown_some_anatomy sf cfg store text k c h
  obtain ⟨p, hp, hmp⟩ := analyze_some_src sf hs store v m hm
  have hdata : m.data ∈ candidateDatas store := by
    rw [hmp]
    exact candidateDatas_mem_of hp
  have hne := hall m.data hdata
  obtain ⟨hse, hel, hveq⟩ := with_view_some_facts hv
  obtain ⟨t', sc', hopt', hl, h1, h2, h3⟩ :=
    @optimize_bounds_inbounds v (m.data)
      (by rw [hveq]; exact hse) (by rw [hveq]; exact hel) hne
  rw [hopt] at hopt'
  injection hopt' with hopt'
  injection hopt' with he1 he2
  subst he1
  subst hc
  simp only
  constructor
  · have : v.viewLo = s0 := by rw [hveq]
    omega
  · exact h2

end Askalono

namespace Askalono

theorem tdEndLoop_cons_none {sf : List PartialMatch → List PartialMatch}
    {cfg : ScanCfg} {store : Store} {text : TextData} {st en : Nat}
    {rest : List Nat} {state : TDState} (hv : text.with_view st en = none) :
    tdEndLoop sf cfg store text st (en :: rest) state = none := by
  simp only [tdEndLoop, hv]

theorem tdEndLoop_cons_update {sf : List PartialMatch → List PartialMatch}
    {cfg : ScanCfg} {store : Store} {text : TextData} {st en : Nat}
    {rest : List Nat} {state : TDState} {v : TextData} {m : MatchR}
    (hv : text.with_view st en = some v)
    (hm : analyze_st sf store v = some m)
    (hh : (state.hit || sGe m.score (some cfg.confidence_threshold)) = true)
    (hlt : sLt m.score (some cfg.confidence_threshold) = false) :
    tdEndLoop sf cfg store text st (en :: rest) state
      = tdEndLoop sf cfg store text st rest ⟨true, some (st, en, m)⟩ := by
  simp only [tdEndLoop, hv, hm, hh, hlt]
  rfl

theorem tdEndLoop_cons_skip {sf : List PartialMatch → List PartialMatch}
    {cfg : ScanCfg} {store : Store} {text : TextData} {st en : Nat}
    {rest : List Nat} {state : TDState} {v : TextData} {m : MatchR}
    (hv : text.with_view st en = some v)
    (hm : analyze_st sf store v = some m)
    (hh : (state.hit || sGe m.score (some cfg.confidence_threshold)) = false) :
    tdEndLoop sf cfg store text st (en :: rest) state
      = tdEndLoop sf cfg store text st rest ⟨false, state.found⟩ := by
  simp only [tdEndLoop, hv, hm, hh]
  rfl

theorem tdStartLoop_cons_none {sf : List PartialMatch → List PartialMatch}
    {cfg : ScanCfg} {store : Store} {text : TextData} {st : Nat}
    {rest : List Nat} {state : TDState}
    (hend : tdEndLoop sf cfg store text st
      (rangeStepIncl st text.viewHi cfg.step_size) state = none) :
    tdStartLoop sf cfg store text (st :: rest) state = none := by
  simp only [tdStartLoop, hend]

theorem tdStartLoop_cons_go {sf : List PartialMatch → List PartialMatch}
    {cfg : ScanCfg} {store : Store} {text : TextData} {st : Nat}
    {rest : List Nat} {state state1 : TDState}
    (hend : tdEndLoop sf cfg store text st
      (rangeStepIncl st text.viewHi cfg.step_size) state = some (state1, false)) :
    tdStartLoop sf cfg store text (st :: rest) state
      = tdStartLoop sf cfg store text rest state1 := by
  simp only [tdStartLoop, hend]
  rfl

theorem candidatesOf_B {store : Store} {nm : String} {entry : LicenseEntry}
    (hstore : store.licenses = [(nm, entry)])
    (halt : entry.alternates = []) (hhdr : entry.headers = [])
    (w : TextData) :
    candidatesOf store w = [⟨nm, entry.original.match_score w,
      LicenseType.Original, entry.original⟩] := by
  unfold candidatesOf entryCandidates
  rw [hstore]
  simp [halt, hhdr]

theorem analyze_B (sf : List PartialMatch → List PartialMatch)
    {store : Store} {nm : String} {entry : LicenseEntry}
    (hstore : store.licenses = [(nm, entry)])
    (halt : entry.alternates = []) (hhdr : entry.headers = [])
    (w : TextData) :
    analyze_st sf store w = some (toMatch ⟨nm, entry.original.match_score w,
      LicenseType.Original, entry.original⟩) :=
  analyze_st_single sf store w
    ⟨nm, entry.original.match_score w, LicenseType.Original, entry.original⟩
    (candidatesOf_B hstore halt hhdr w)

theorem scoreB {entry : LicenseEntry} (hsz : entry.original.match_data.size = 0)
    (w : TextData) :
    entry.original.match_score w = none ∨
      ∃ d, entry.original.match_score w = some ⟨0, d⟩ ∧ 0 < d := by
  unfold TextData.match_score
  by_cases hw : w.match_data.size = 0
  · left
    rw [dice_none_iff]
    exact ⟨by rw [match_data_n, match_data_n], hsz, hw⟩
  · right
    exact ⟨w.match_data.size,
      dice_one_empty_left (by rw [match_data_n, match_data_n]) hsz hw, by omega⟩

theorem B_hit_thr0 {sc : Option Frac} {thr : Frac}
    (hsc : sc = none ∨ ∃ d, sc = some ⟨0, d⟩ ∧ 0 < d)
    (h : sGe sc (some thr) = true) : thr.num = 0 := by
  rcases hsc with h0 | ⟨d, h0, hd⟩
  · rw [h0] at h
    simp [sGe] at h
  · rw [h0] at h
    simp only [sGe, decide_eq_true_eq] at h
    unfold fLe at h
    simp only [Nat.zero_mul] at h
    have hz : thr.num * d = 0 := by omega
    rcases Nat.mul_eq_zero.mp hz with h' | h'
    · exact h'
    · omega

theorem B_noLt {sc : Option Frac} {thr : Frac}
    (hsc : sc = none ∨ ∃ d, sc = some ⟨0, d⟩ ∧ 0 < d)
    (hthr : thr.num = 0) : sLt sc (some thr) = false := by
  rcases hsc with h0 | ⟨d, h0, hd⟩
  · rw [h0]
    rfl
  · rw [h0]
    simp only [sLt, decide_eq_false_iff_not]
    unfold fLt
    simp [hthr]

theorem tdEndLoop_B (sf : List PartialMatch → List PartialMatch)
    (cfg : ScanCfg) {store : Store} (text : TextData)
    {nm : String} {entry : LicenseEntry}
    (hstore : store.licenses = [(nm, entry)])
    (halt : entry.alternates = []) (hhdr : entry.headers = [])
    (hsz : entry.original.match_data.size = 0) :
    ∀ (ens : List Nat) (st : Nat) (state : TDState),
      (state.hit = true → cfg.confidence_threshold.num = 0) →
      tdEndLoop sf cfg store text st ens state = none ∨
      ∃ state', tdEndLoop sf cfg store text st ens state = some (state', false) ∧
        (state'.hit = true → cfg.confidence_threshold.num = 0) ∧
        (state.hit = true → state'.hit = true) ∧
        (state'.hit = false → state'.found = state.found) ∧
        (ens = [] → state' = state) ∧
        (state'.hit = true → ens ≠ [] →
          ∃ en m, ens.getLast? = some en ∧
            state'.found = some (st, en, m) ∧ m.data = entry.original) := by
  intro ens
  induction ens with
  | nil =>
      intro st state hinv
      exact Or.inr ⟨state, rfl, hinv, fun h => h, fun _ => rfl, fun _ => rfl,
        fun _ hne => absurd rfl hne⟩
  | cons en rest ih =>
      intro st state hinv
      cases hv : text.with_view st en with
      | none => exact Or.inl (tdEndLoop_cons_none hv)
      | some v =>
          obtain ⟨sc0, hsc0⟩ : ∃ s, entry.original.match_score v = s := ⟨_, rfl⟩
          have hm : analyze_st sf store v
              = some (toMatch ⟨nm, sc0, LicenseType.Original, entry.original⟩) := by
            rw [← hsc0]
            exact analyze_B sf hstore halt hhdr v
          have hscv : sc0 = none ∨ ∃ d, sc0 = some ⟨0, d⟩ ∧ 0 < d :=
            hsc0 ▸ scoreB hsz v
          by_cases hh : (state.hit ||
              sGe sc0 (some cfg.confidence_threshold)) = true
          · have hthr : cfg.confidence_threshold.num = 0 := by
              cases hst : state.hit with
              | true => exact hinv hst
              | false =>
                  rw [hst, Bool.false_or] at hh
                  exact B_hit_thr0 hscv hh
            have hlt := B_noLt hscv hthr
            have hstep := @tdEndLoop_cons_update sf cfg store text st en rest
              state v (toMatch ⟨nm, sc0, LicenseType.Original, entry.original⟩)
              hv hm hh hlt
            rcases ih st ⟨true, some (st, en,
                toMatch ⟨nm, sc0, LicenseType.Original, entry.original⟩)⟩
                (fun _ => hthr) with hnone |
                ⟨state', heq, hi1, hi2, hi3, hi4, hi5⟩
            · left
              rw [hstep]
              exact hnone
            · right
              refine ⟨state', by rw [hstep]; exact heq, hi1,
                fun _ => hi2 rfl, ?_, ?_, ?_⟩
              · intro hf
                rw [hi2 rfl] at hf
                exact Bool.noConfusion hf
              · intro hnil
                exact absurd hnil (List.cons_ne_nil _ _)
              · intro _ _
                cases hrest : rest with
                | nil =>
                    subst hrest
                    have hstate := hi4 rfl
                    refine ⟨en, toMatch ⟨nm, sc0, LicenseType.Original,
                      entry.original⟩, rfl, ?_, rfl⟩
                    rw [hstate]
                | cons r rs =>
                    subst hrest
                    obtain ⟨en', m', hlast, hfound, hdata⟩ :=
                      hi5 (hi2 rfl) (List.cons_ne_nil _ _)
                    exact ⟨en', m', by rw [List.getLast?_cons_cons]; exact hlast,
                      hfound, hdata⟩
          · rw [Bool.not_eq_true] at hh
            have hstep := @tdEndLoop_cons_skip sf cfg store text st en rest
              state v (toMatch ⟨nm, sc0, LicenseType.Original, entry.original⟩)
              hv hm hh
            have hsthit : state.hit = false := by
              cases hst : state.hit with
              | false => rfl
              | true =>
                  rw [hst, Bool.true_or] at hh
                  exact Bool.noConfusion hh
            rcases ih st ⟨false, state.found⟩
                (fun hfalse => Bool.noConfusion hfalse) with hnone |
                ⟨state', heq, hi1, hi2, hi3, hi4, hi5⟩
            · left
              rw [hstep]
              exact hnone
            · right
              refine ⟨state', by rw [hstep]; exact heq, hi1, ?_, hi3, ?_, ?_⟩
              · intro hst
                rw [hsthit] at hst
                exact Bool.noConfusion hst
              · intro hnil
                exact absurd hnil (List.cons_ne_nil _ _)
              · intro hhit' _
                cases hrest : rest with
                | nil =>
                    subst hrest
                    exfalso
                    have := hi4 rfl
                    rw [this] at hhit'
                    exact Bool.noConfusion hhit'
                | cons r rs =>
                    subst hrest
                    obtain ⟨en', m', hlast, hfound, hdata⟩ :=
                      hi5 hhit' (List.cons_ne_nil _ _)
                    exact ⟨en', m', by rw [List.getLast?_cons_cons]; exact hlast,
                      hfound, hdata⟩

theorem tdStartLoop_B (sf : List PartialMatch → List PartialMatch)
    (cfg : ScanCfg) {store : Store} (text : TextData)
    {nm : String} {entry : LicenseEntry}
    (hstore : store.licenses = [(nm, entry)])
    (halt : entry.alternates = []) (hhdr : entry.headers = [])
    (hsz : entry.original.match_data.size = 0) :
    ∀ (sts : List Nat) (state : TDState),
      (∀ st ∈ sts, st < text.viewHi) →
      (state.hit = true → cfg.confidence_threshold.num = 0) →
      tdStartLoop sf cfg store text sts state = none ∨
      ∃ state', tdStartLoop sf cfg store text sts state = some state' ∧
        (state.hit = true → state'.hit = true) ∧
        (state'.hit = true → cfg.confidence_threshold.num = 0) ∧
        (state'.hit = false → state'.found = state.found) ∧
        (sts = [] → state' = state) ∧
        (state'.hit = true → sts ≠ [] →
          ∃ st0 en0 m, sts.getLast? = some st0 ∧
            (rangeStepIncl st0 text.viewHi cfg.step_size).getLast? = some en0 ∧
            state'.found = some (st0, en0, m) ∧ m.data = entry.original) := by
  intro sts
  induction sts with
  | nil =>
      intro state _ hinv
      exact Or.inr ⟨state, rfl, fun h => h, hinv, fun _ => rfl, fun _ => rfl,
        fun _ hne => absurd rfl hne⟩
  | cons st rest ih =>
      intro state hsts hinv
      have hstlt := hsts st (by simp)
      have hens_ne : rangeStepIncl st text.viewHi cfg.step_size ≠ [] :=
        rangeStepIncl_ne_nil (le_of_lt hstlt)
      rcases tdEndLoop_B sf cfg text hstore halt hhdr hsz
          (rangeStepIncl st text.viewHi cfg.step_size) st state hinv with hnone |
          ⟨state1, hend, he1, he2, he3, he4, he5⟩
      · exact Or.inl (tdStartLoop_cons_none hnone)
      · have hstep := @tdStartLoop_cons_go sf cfg store text st rest state state1 hend
        rcases ih state1 (fun x hx => hsts x (by simp [hx])) he1 with hnone |
            ⟨state', hloop, hs1, hs2, hs3, hs4, hs5⟩
        · left
          rw [hstep]
          exact hnone
        · right
          refine ⟨state', by rw [hstep]; exact hloop, ?_, hs2, ?_, ?_, ?_⟩
          · intro h
            exact hs1 (he2 h)
          · intro hf
            have h1f : state1.hit = false := by
              cases h1 : state1.hit with
              | false => rfl
              | true =>
                  rw [hs1 h1] at hf
                  exact Bool.noConfusion hf
            rw [hs3 hf, he3 h1f]
          · intro hnil
            exact absurd hnil (List.cons_ne_nil _ _)
          · intro hhit _
            cases hrest : rest with
            | nil =>
                subst hrest
                have hse : state' = state1 := hs4 rfl
                have h1t : state1.hit = true := by
                  rw [← hse]
                  exact hhit
                obtain ⟨en0, m, hlast, hfound, hdata⟩ := he5 h1t hens_ne
                refine ⟨st, en0, m, rfl, hlast, ?_, hdata⟩
                rw [hse]
                exact hfound
            | cons r rs =>
                subst hrest
                obtain ⟨st0, en0, m, hlast, hlastEn, hfound, hdata⟩ :=
                  hs5 hhit (List.cons_ne_nil _ _)
                exact ⟨st0, en0, m,
                  by rw [List.getLast?_cons_cons]; exact hlast,
                  hlastEn, hfound, hdata⟩

end Askalono

namespace Askalono

theorem tdEndLoop_cons_panic {sf : List PartialMatch → List PartialMatch}
    {cfg : ScanCfg} {store : Store} {text : TextData} {st en : Nat}
    {rest : List Nat} {state : TDState} {v : TextData}
    (hv : text.with_view st en = some v)
    (hm : analyze_st sf store v = none) :
    tdEndLoop sf cfg store text st (en :: rest) state = none := by
  simp only [tdEndLoop, hv, hm]

theorem rangeStepExcl_cons {start stop step : Nat} (h : start < stop) :
    rangeStepExcl start stop step
      = start :: rangeStepGo step (stop - start - 1) (start + step) stop := by
  unfold rangeStepExcl
  cases hf : stop - start with
  | zero => omega
  | succ f =>
      rw [rangeStepGo, if_pos h]
      have hf2 : f + 1 - 1 = f := rfl
      rw [hf2]

theorem rangeStepIncl_cons {st hi step : Nat} (h : st ≤ hi) :
    rangeStepIncl st hi step
      = st :: rangeStepGo step (hi - st) (st + step) (hi + 1) := by
  unfold rangeStepIncl rangeStepExcl
  cases hf : hi + 1 - st with
  | zero => omega
  | succ f =>
      rw [rangeStepGo, if_pos (by omega)]
      have hf2 : hi - st = f := by omega
      rw [hf2]

theorem topdown_B_result (sf : List PartialMatch → List PartialMatch)
    (cfg : ScanCfg) {store : Store} (text : TextData)
    {nm : String} {entry : LicenseEntry}
    (hstore : store.licenses = [(nm, entry)])
    (halt : entry.alternates = []) (hhdr : entry.headers = [])
    (hsz : entry.original.match_data.size = 0)
    (k : Nat) (c : ContainedResult)
    (h : topdown_find_contained_license sf cfg store text k = some (some c)) :
    c.lineLo ≤ c.lineHi ∧ text.viewHi ≤ c.lineHi + cfg.step_size := by
  unfold topdown_find_contained_license at h
  by_cases hstep0 : cfg.step_size = 0
  · rw [if_pos hstep0] at h
    exact Option.noConfusion h
  · rw [if_neg hstep0] at h
    rcases tdStartLoop_B sf cfg text hstore halt hhdr hsz
        (rangeStepExcl k text.viewHi cfg.step_size) ⟨false, none⟩
        (fun x hx => (rangeStepExcl_mem hx).2)
        (fun hf => Bool.noConfusion hf) with hnone |
        ⟨state', hloop, hs1, hs2, hs3, hs4, hs5⟩
    · rw [hnone] at h
      exact Option.noConfusion h
    · simp only [hloop] at h
      split at h
      · injection h with h
        exact Option.noConfusion h
      · rename_i s0 e0 m hfound
        have hhit : state'.hit = true := by
          cases hsh : state'.hit with
          | true => rfl
          | false =>
              exfalso
              have := hs3 hsh
              rw [hfound] at this
              exact Option.noConfusion this
        have hgridne : rangeStepExcl k text.viewHi cfg.step_size ≠ [] := by
          intro hnil
          have := hs4 hnil
          rw [this] at hfound
          exact Option.noConfusion hfound
        obtain ⟨st0, en0, m', hlastSt, hlastEn, hfound', hdata⟩ := hs5 hhit hgridne
        rw [hfound] at hfound'
        injection hfound' with hf
        injection hf with hf1 hf2
        injection hf2 with hf2 hf3
        subst hf1
        subst hf2
        subst hf3
        have hklt : k < text.viewHi := by
          by_contra hge
          exact hgridne (rangeStepExcl_nil (by omega))
        obtain ⟨lst, hlst, hl1, hl2, hl3⟩ :=
          @rangeStepExcl_getLast k text.viewHi cfg.step_size (by omega) hklt
        rw [hlastSt] at hlst
        injection hlst with hlst
        subst hlst
        split at h
        · exact Option.noConfusion h
        · rename_i v hv
          split at h
          · exact Option.noConfusion h
          · rename_i opt sc hopt
            split at h
            · injection h with h
              exact Option.noConfusion h
            · injection h with h
              injection h with h
              obtain ⟨hw1, hw2, hw3⟩ := with_view_some_facts hv
              obtain ⟨ho1, ho2, ho3⟩ := optimize_bounds_some_facts hopt
              subst h
              constructor
              · exact ho3
              · show text.viewHi ≤ opt.viewHi + cfg.step_size
                have hv0 : v.viewLo = s0 := by rw [hw3]
                omega

theorem topdown_B_none (sf : List PartialMatch → List PartialMatch)
    (cfg : ScanCfg) {store : Store} (text : TextData)
    {nm : String} {entry : LicenseEntry}
    (hstore : store.licenses = [(nm, entry)])
    (halt : entry.alternates = []) (hhdr : entry.headers = [])
    (hsz : entry.original.match_data.size = 0)
    (k : Nat) (hk : 1 ≤ k) (hbig : text.viewHi < k + cfg.step_size) :
    topdown_find_contained_license sf cfg store text k = none ∨
    topdown_find_contained_license sf cfg store text k = some none := by
  by_cases hstep0 : cfg.step_size = 0
  · left
    unfold topdown_find_contained_license
    rw [if_pos hstep0]
  · rcases tdStartLoop_B sf cfg text hstore halt hhdr hsz
        (rangeStepExcl k text.viewHi cfg.step_size) ⟨false, none⟩
        (fun x hx => (rangeStepExcl_mem hx).2)
        (fun hf => Bool.noConfusion hf) with hnone |
        ⟨state', hloop, hs1, hs2, hs3, hs4, hs5⟩
    · left
      unfold topdown_find_contained_license
      rw [if_neg hstep0, hnone]
    · cases hfound : state'.found with
      | none =>
          right
          unfold topdown_find_contained_license
          rw [if_neg hstep0]
          simp only [hloop, hfound]
      | some trip =>
          obtain ⟨s0, e0, m⟩ := trip
          have hhit : state'.hit = true := by
            cases hsh : state'.hit with
            | true => rfl
            | false =>
                exfalso
                have := hs3 hsh
                rw [hfound] at this
                exact Option.noConfusion this
          have hgridne : rangeStepExcl k text.viewHi cfg.step_size ≠ [] := by
            intro hnil
            have := hs4 hnil
            rw [this] at hfound
            exact Option.noConfusion hfound
          obtain ⟨st0, en0, m', hlastSt, hlastEn, hfound', hdata⟩ := hs5 hhit hgridne
          rw [hfound] at hfound'
          injection hfound' with hf
          injection hf with hf1 hf2
          injection hf2 with hf2 hf3
          subst hf1
          subst hf2
          subst hf3
          have hklt : k < text.viewHi := by
            by_contra hge
            exact hgridne (rangeStepExcl_nil (by omega))
          obtain ⟨lst, hlst, hl1, hl2, hl3⟩ :=
            @rangeStepExcl_getLast k text.viewHi cfg.step_size (by omega) hklt
          rw [hlastSt] at hlst
          injection hlst with hlst
          subst hlst
          have hsingle : rangeStepIncl s0 text.viewHi cfg.step_size = [s0] :=
            rangeStepIncl_singleton (by omega) (by omega)
          rw [hsingle, List.getLast?_singleton] at hlastEn
          have he0 : e0 = s0 := (Option.some_inj.mp hlastEn).symm
          rw [he0] at hfound
          left
          unfold topdown_find_contained_license
          rw [if_neg hstep0]
          simp only [hloop, hfound]
          cases hv : text.with_view s0 s0 with
          | none => simp only [hv]
          | some v =>
              simp only [hv]
              obtain ⟨hw1, hw2, hw3⟩ := with_view_some_facts hv
              have hopt : v.optimize_bounds m.data = none := by
                refine optimize_width0_none (by rw [hw3]) ?_ ?_
                · rw [hw3]
                  show 1 ≤ s0
                  omega
                · rw [hdata]
                  exact hsz
              simp only [hopt]

theorem topdown_C_none (sf : List PartialMatch → List PartialMatch)
    (cfg : ScanCfg) (store : Store) (text : TextData)
    (hlen2 : 2 ≤ (candidateDatas store).length)
    (d0 : TextData) (hd0 : d0 ∈ candidateDatas store)
    (hd0sz : d0.match_data.size = 0) (k : Nat) :
    topdown_find_contained_license sf cfg store text k = none ∨
    topdown_find_contained_license sf cfg store text k = some none := by
  by_cases hstep0 : cfg.step_size = 0
  · left
    unfold topdown_find_contained_license
    rw [if_pos hstep0]
  · by_cases hk : k < text.viewHi
    · left
      unfold topdown_find_contained_license
      rw [if_neg hstep0, rangeStepExcl_cons hk]
      have hens := @rangeStepIncl_cons k text.viewHi cfg.step_size (le_of_lt hk)
      cases hv : text.with_view k k with
      | none =>
          rw [tdStartLoop_cons_none ?_]
          rw [hens]
          exact tdEndLoop_cons_none hv
      | some v =>
          obtain ⟨hw1, hw2, hw3⟩ := with_view_some_facts hv
          have hvsz : v.match_data.size = 0 := by
            rw [hw3]
            exact match_data_width0 text.lines k
          have hnan : ∃ p ∈ candidatesOf store v, p.score = none := by
            have hmem : d0 ∈ (candidatesOf store v).map (fun p => p.data) := by
              rw [candidatesOf_data_map]
              exact hd0
            obtain ⟨p, hp, hpd⟩ := List.mem_map.mp hmem
            refine ⟨p, hp, ?_⟩
            rw [candidatesOf_score_eq store v p hp, hpd]
            unfold TextData.match_score
            rw [dice_none_iff]
            exact ⟨by rw [match_data_n, match_data_n], hd0sz, hvsz⟩
          have hm : analyze_st sf store v = none :=
            analyze_none_of_nan_multi sf store v
              (by rw [candidatesOf_length]; exact hlen2) hnan
          rw [tdStartLoop_cons_none ?_]
          rw [hens]
          exact tdEndLoop_cons_panic hv hm
    · right
      unfold topdown_find_contained_license
      rw [if_neg hstep0, rangeStepExcl_nil (by omega)]
      simp only [tdStartLoop]

theorem scanGo_D (sf : List PartialMatch → List PartialMatch)
    (hs : SortSpec sf) (cfg : ScanCfg) (store : Store) (text : TextData)
    (hall : ∀ d ∈ candidateDatas store, d.match_data.size ≠ 0) :
    ∀ (fuel k : Nat) (acc : List ContainedResult),
      containedOrdered acc → (∀ c ∈ acc, c.lineLo ≤ c.lineHi) →
      (∀ lst ∈ acc.getLast?, lst.lineHi + 1 ≤ k) →
      ∀ r, scanTopdownGo sf cfg store text fuel k acc = some r →
        containedOrdered r.containing ∧ ∀ c ∈ r.containing, c.lineLo ≤ c.lineHi := by
  intro fuel
  induction fuel with
  | zero => intro k acc _ _ _ r h; exact Option.noConfusion h
  | succ f ih =>
      intro k acc hord hwf hlast r h
      rw [scanTopdownGo] at h
      by_cases hk : k < text.viewHi
      · rw [if_pos hk] at h
        cases htd : topdown_find_contained_license sf cfg store text k with
        | none => rw [htd] at h; exact Option.noConfusion h
        | some o =>
            cases o with
            | none =>
                rw [htd] at h
                injection h with h
                subst h
                exact ⟨hord, hwf⟩
            | some c =>
                rw [htd] at h
                obtain ⟨hk1, hk2⟩ := topdown_D sf hs cfg store text hall k c htd
                refine ih (c.lineHi + 1) (acc ++ [c]) ?_ ?_ ?_ r h
                · unfold containedOrdered at hord ⊢
                  refine List.Chain'.append hord (List.chain'_singleton c) ?_
                  intro x hx y hy
                  simp only [List.head?_cons, Option.mem_some_iff] at hy
                  subst hy
                  have := hlast x hx
                  omega
                · intro x hx
                  rcases List.mem_append.mp hx with hx | hx
                  · exact hwf x hx
                  · rw [List.mem_singleton] at hx
                    subst hx
                    exact hk2
                · intro lst hl
                  rw [List.getLast?_concat] at hl
                  simp only [Option.mem_some_iff] at hl
                  subst hl
                  omega
      · rw [if_neg hk] at h
        injection h with h
        subst h
        exact ⟨hord, hwf⟩

theorem scanGo_B (sf : List PartialMatch → List PartialMatch)
    (cfg : ScanCfg) {store : Store} (text : TextData)
    {nm : String} {entry : LicenseEntry}
    (hstore : store.licenses = [(nm, entry)])
    (halt : entry.alternates = []) (hhdr : entry.headers = [])
    (hsz : entry.original.match_data.size = 0) :
    ∀ (fuel k : Nat) (acc : List ContainedResult),
      containedOrdered acc → (∀ c ∈ acc, c.lineLo ≤ c.lineHi) →
      (acc ≠ [] → 1 ≤ k ∧ text.viewHi < k + cfg.step_size) →
      ∀ r, scanTopdownGo sf cfg store text fuel k acc = some r →
        containedOrdered r.containing ∧ ∀ c ∈ r.containing, c.lineLo ≤ c.lineHi := by
  intro fuel
  induction fuel with
  | zero => intro k acc _ _ _ r h; exact Option.noConfusion h
  | succ f ih =>
      intro k acc hord hwf hinv r h
      rw [scanTopdownGo] at h
      by_cases hk : k < text.viewHi
      · rw [if_pos hk] at h
        cases htd : topdown_find_contained_license sf cfg store text k with
        | none => rw [htd] at h; exact Option.noConfusion h
        | some o =>
            cases o with
            | none =>
                rw [htd] at h
                injection h with h
                subst h
                exact ⟨hord, hwf⟩
            | some c =>
                rw [htd] at h
                by_cases hacc : acc = []
                · subst hacc
                  obtain ⟨hc1, hc2⟩ :=
                    topdown_B_result sf cfg text hstore halt hhdr hsz k c htd
                  refine ih (c.lineHi + 1) ([] ++ [c]) ?_ ?_ ?_ r h
                  · unfold containedOrdered
                    simp only [List.nil_append]
                    exact List.chain'_singleton c
                  · intro x hx
                    simp only [List.nil_append, List.mem_singleton] at hx
                    subst hx
                    exact hc1
                  · intro _
                    omega
                · exfalso
                  obtain ⟨h1, h2⟩ := hinv hacc
                  rcases topdown_B_none sf cfg text hstore halt hhdr hsz k h1 h2
                      with hnone | hsome
                  · rw [htd] at hnone
                    exact Option.noConfusion hnone
                  · rw [htd] at hsome
                    injection hsome with hsome
                    exact Option.noConfusion hsome
      · rw [if_neg hk] at h
        injection h with h
        subst h
        exact ⟨hord, hwf⟩

theorem scanGo_C (sf : List PartialMatch → List PartialMatch)
    (cfg : ScanCfg) (store : Store) (text : TextData)
    (hlen2 : 2 ≤ (candidateDatas store).length)
    (d0 : TextData) (hd0 : d0 ∈ candidateDatas store)
    (hd0sz : d0.match_data.size = 0) :
    ∀ (fuel k : Nat) (r : ScanResultR),
      scanTopdownGo sf cfg store text fuel k [] = some r →
      containedOrdered r.containing ∧ ∀ c ∈ r.containing, c.lineLo ≤ c.lineHi := by
  intro fuel
  induction fuel with
  | zero => intro k r h; exact Option.noConfusion h
  | succ f ih =>
      intro k r h
      rw [scanTopdownGo] at h
      by_cases hk : k < text.viewHi
      · rw [if_pos hk] at h
        rcases topdown_C_none sf cfg store text hlen2 d0 hd0 hd0sz k with
            hnone | hsome
        · rw [hnone] at h
          exact Option.noConfusion h
        · rw [hsome] at h
          injection h with h
          subst h
          exact ⟨List.chain'_nil, fun c hc => absurd hc (List.not_mem_nil c)⟩
      · rw [if_neg hk] at h
        injection h with h
        subst h
        exact ⟨List.chain'_nil, fun c hc => absurd hc (List.not_mem_nil c)⟩

end Askalono

namespace Askalono

/-- Claim C7: in TopDown mode the `containing` list is in document
order and pairwise disjoint — each consecutive pair of results is
separated by at least one line — and every reported line range is
well-formed. -/
theorem C7_topdown_containing_ordered (sortFn : List PartialMatch → List PartialMatch)
    (hs : SortSpec sortFn) (cfg : ScanCfg) (store : Store) (text : TextData)
    (r : ScanResultR) (h : scan_topdown sortFn cfg store text = some r) :
    containedOrdered r.containing ∧ ∀ c ∈ r.containing, c.lineLo ≤ c.lineHi := by
  unfold scan_topdown at h
  by_cases hall : ∀ d ∈ candidateDatas store, d.match_data.size ≠ 0
  · exact scanGo_D sortFn hs cfg store text hall (text.viewHi + 1) 0 []
      List.chain'_nil (fun c hc => absurd hc (List.not_mem_nil c))
      (fun lst hl => absurd hl (by simp)) r h
  · push_neg at hall
    obtain ⟨d0, hd0, hd0sz⟩ := hall
    cases hcd : candidateDatas store with
    | nil =>
        rw [hcd] at hd0
        cases hd0
    | cons d1 tail =>
        cases tail with
        | nil =>
            rw [hcd] at hd0
            rw [List.mem_singleton] at hd0
            obtain ⟨nm, entry, hstore, horig, halt, hhdr⟩ :=
              candidateDatas_singleton hcd
            have hsz : entry.original.match_data.size = 0 := by
              rw [horig, ← hd0]
              exact hd0sz
            exact scanGo_B sortFn cfg text hstore halt hhdr hsz
              (text.viewHi + 1) 0 [] List.chain'_nil
              (fun c hc => absurd hc (List.not_mem_nil c))
              (fun hne => absurd rfl hne) r h
        | cons d2 tail2 =>
            have hlen2 : 2 ≤ (candidateDatas store).length := by
              rw [hcd]
              simp only [List.length_cons]
              omega
            exact scanGo_C sortFn cfg store text hlen2 d0 hd0 hd0sz
              (text.viewHi + 1) 0 r h

/-- Witness for C7 on a concrete scan that produces a non-empty
`containing` list. -/
theorem C7_scan_witness :
    containedOrdered (ScanResultR.containing
      ⟨fZero, none, [⟨⟨2, 2⟩, "L", LicenseType.Original, 0, 1⟩]⟩) ∧
    ∀ c ∈ ScanResultR.containing
        ⟨fZero, none, [⟨⟨2, 2⟩, "L", LicenseType.Original, 0, 1⟩]⟩,
      c.lineLo ≤ c.lineHi :=
  C7_topdown_containing_ordered insSortDesc insSortDesc_spec ⟨⟨1, 2⟩, 1⟩ oneStore
    (TextData.ofLines [str "aa bb"]) _ (by decide)

end Askalono
